import Mathlib

/-!
Verification of the Linux module finder
(`src/modulefinder/sentry_modulefinder_linux.c`).

The C code is shallowly embedded: `uint64_t` values are natural numbers
reduced modulo `2 ^ 64` wherever the C arithmetic can wrap, fallible
operations return `Option`, and the few pieces of global state are made
explicit.  Definitions mirror the corresponding C functions and keep their
names.
-/

/-- `2 ^ 64`, the modulus of `uint64_t` arithmetic. -/
def U64N : Nat := 2 ^ 64

/-- Wrapping `uint64_t` subtraction `a - b` for `a b < U64N`. -/
def sub64 (a b : Nat) : Nat := (a + U64N - b) % U64N

/-- `MAX_MAPPINGS` from the C source (region cap per module). -/
def MAX_MAPPINGS : Nat := 5

/-- `EI_NIDENT`: number of ELF identification bytes. -/
def EI_NIDENT : Nat := 16

/-- `sentry_mapped_region_t`: one contiguous chunk of a module's backing
file mapped into memory (`offset`, `size`, `addr` are `uint64_t`). -/
structure sentry_mapped_region_t where
  offset : Nat
  size : Nat
  addr : Nat
deriving DecidableEq

/-- `sentry_module_t`: the per-module accumulation state.  `file` is the
path slice (`none` models a NULL `file.ptr`), `mappings` the first
`num_mappings` entries of the region array, in storage order. -/
structure sentry_module_t where
  file : Option (List Char)
  mappings : List sentry_mapped_region_t
deriving DecidableEq

/-- `sentry_parsed_module_t`: one parsed `/proc/self/maps` line.  The C
field `end` is called `stop` here (`end` is a Lean keyword).  `file` is the
path slice; `none` models a NULL `file.ptr`. -/
structure sentry_parsed_module_t where
  start : Nat
  stop : Nat
  permissions : List Char
  offset : Nat
  file : Option (List Char)
deriving DecidableEq

/-- The loop of `sentry__module_get_addr`, with the loop state (`addr`,
`addr_end`) explicit.  `addr = 0` models the "no candidate yet" state, as
in the C code (`if (addr && ...)`). -/
def getAddrGo (so size : Nat) : List sentry_mapped_region_t → Nat → Nat → Option Nat
  | [], _, _ => none
  | m :: rest, addr, addrEnd =>
    if addr ≠ 0 ∧ addrEnd < m.addr then none
    else
      let addrEnd' := (m.addr + m.size) % U64N
      let addr' := if m.offset ≤ so ∧ so < (m.offset + m.size) % U64N
        then (so - m.offset + m.addr) % U64N
        else addr
      if addr' ≠ 0 ∧ (addr' + size) % U64N ≤ addrEnd' then some addr'
      else getAddrGo so size rest addr' addrEnd'

/-- `sentry__module_get_addr`: checks that `start_offset + size` is a valid
contiguous mapping in the mapped regions and returns the translated
address corresponding to `start_offset` (`none` models NULL).  The initial
`addr_end` is `UINT64_MAX`. -/
def sentry__module_get_addr (module : sentry_module_t) (so size : Nat) : Option Nat :=
  getAddrGo so size module.mappings 0 (U64N - 1)

/-- `sentry__module_mapping_push`: merge the parsed fragment into the last
stored region when both address and file-offset contiguity hold, else
append a fresh region while under `MAX_MAPPINGS`, else drop it.
`size_t size = parsed->end - parsed->start` is the wrapping difference. -/
def sentry__module_mapping_push (module : sentry_module_t) (parsed : sentry_parsed_module_t) :
    sentry_module_t :=
  let sz := sub64 parsed.stop parsed.start
  match module.mappings.getLast? with
  | some last =>
    if (last.addr + last.size) % U64N = parsed.start
        ∧ (last.offset + last.size) % U64N = parsed.offset then
      { module with mappings :=
          module.mappings.dropLast ++ [⟨last.offset, (last.size + sz) % U64N, last.addr⟩] }
    else if module.mappings.length < MAX_MAPPINGS then
      { module with mappings := module.mappings ++ [⟨parsed.offset, sz, parsed.start⟩] }
    else module
  | none =>
    if module.mappings.length < MAX_MAPPINGS then
      { module with mappings := module.mappings ++ [⟨parsed.offset, sz, parsed.start⟩] }
    else module

/-- The merge condition of `sentry__module_mapping_push`, as the C code
tests it (wrapping `uint64_t` sums against the last stored region). -/
def mergeCond (module : sentry_module_t) (parsed : sentry_parsed_module_t) : Prop :=
  match module.mappings.getLast? with
  | some last => (last.addr + last.size) % U64N = parsed.start
      ∧ (last.offset + last.size) % U64N = parsed.offset
  | none => False

/-- The region a parsed fragment is stored as when it is not merged. -/
def fragRegion (p : sentry_parsed_module_t) : sentry_mapped_region_t :=
  ⟨p.offset, sub64 p.stop p.start, p.start⟩

/-- Fragment `g` would merge onto a region just stored for fragment `f`. -/
def fragMerge (f g : sentry_parsed_module_t) : Prop :=
  (f.start + sub64 f.stop f.start) % U64N = g.start
    ∧ (f.offset + sub64 f.stop f.start) % U64N = g.offset

/-- Consecutive fragments of the list never satisfy the merge condition. -/
def chainNoMerge : List sentry_parsed_module_t → Prop
  | [] => True
  | [_] => True
  | f :: g :: rest => ¬ fragMerge f g ∧ chainNoMerge (g :: rest)

/-- `sentry_module_t last_module = { 0 }` of `load_modules`. -/
def emptyModule : sentry_module_t := ⟨none, []⟩

theorem getAddrGo_sound (so size : Nat) (all : List sentry_mapped_region_t)
    (hwf : ∀ m ∈ all, m.offset + m.size < U64N ∧ m.addr + m.size + size < U64N) :
    ∀ (l : List sentry_mapped_region_t) (addr addrEnd A : Nat),
    (∀ m ∈ l, m ∈ all) →
    (addr ≠ 0 →
      addr + size < U64N ∧
      (∃ m ∈ all, m.offset ≤ so ∧ so < m.offset + m.size ∧ addr = so - m.offset + m.addr) ∧
      (∀ x, addr ≤ x → x < addrEnd → ∃ m ∈ all, m.addr ≤ x ∧ x < m.addr + m.size)) →
    getAddrGo so size l addr addrEnd = some A →
    (∃ m ∈ all, m.offset ≤ so ∧ so < m.offset + m.size ∧ A = so - m.offset + m.addr) ∧
    (∀ x, A ≤ x → x < A + size → ∃ m ∈ all, m.addr ≤ x ∧ x < m.addr + m.size) := by
  intro l
  induction l with
  | nil =>
    intro addr addrEnd A _ _ hres
    simp [getAddrGo] at hres
  | cons m rest ih =>
    intro addr addrEnd A hsub hinv hres
    have hm : m ∈ all := hsub m (List.mem_cons_self m rest)
    have hsub' : ∀ r ∈ rest, r ∈ all := fun r hr => hsub r (List.mem_cons_of_mem m hr)
    obtain ⟨hwo, hwa⟩ := hwf m hm
    have hwa' : m.addr + m.size < U64N := lt_of_le_of_lt (Nat.le_add_right _ _) hwa
    simp only [getAddrGo] at hres
    by_cases hgap : addr ≠ 0 ∧ addrEnd < m.addr
    · rw [if_pos hgap] at hres
      exact absurd hres (by simp)
    rw [if_neg hgap] at hres
    rw [Nat.mod_eq_of_lt hwo, Nat.mod_eq_of_lt hwa'] at hres
    by_cases hin : m.offset ≤ so ∧ so < m.offset + m.size
    · -- the candidate address is (re)created from this mapping
      rw [if_pos hin] at hres
      have hlt : so - m.offset + m.addr < m.addr + m.size := by omega
      have hbound : so - m.offset + m.addr < U64N := lt_trans hlt hwa'
      rw [Nat.mod_eq_of_lt hbound] at hres
      have hfound : ∃ mm ∈ all, mm.offset ≤ so ∧ so < mm.offset + mm.size ∧
          so - m.offset + m.addr = so - mm.offset + mm.addr :=
        ⟨m, hm, hin.1, hin.2, rfl⟩
      have hsz : so - m.offset + m.addr + size < U64N := by omega
      rw [Nat.mod_eq_of_lt hsz] at hres
      by_cases hsucc : so - m.offset + m.addr ≠ 0 ∧ so - m.offset + m.addr + size ≤ m.addr + m.size
      · rw [if_pos hsucc] at hres
        obtain rfl : so - m.offset + m.addr = A := by injection hres
        refine ⟨hfound, fun x hx1 hx2 => ⟨m, hm, ?_, ?_⟩⟩ <;> omega
      · rw [if_neg hsucc] at hres
        refine ih _ _ A hsub' (fun _ => ⟨hsz, hfound, fun x hx1 hx2 => ⟨m, hm, ?_, ?_⟩⟩) hres <;>
          omega
    · -- the candidate (if any) is carried over unchanged
      rw [if_neg hin] at hres
      by_cases hsucc : addr ≠ 0 ∧ (addr + size) % U64N ≤ m.addr + m.size
      · rw [if_pos hsucc] at hres
        obtain ⟨hsz, hfound, hcov⟩ := hinv hsucc.1
        rw [Nat.mod_eq_of_lt hsz] at hsucc
        obtain rfl : addr = A := by injection hres
        refine ⟨hfound, fun x hx1 hx2 => ?_⟩
        by_cases hx : x < addrEnd
        · exact hcov x hx1 hx
        · have hmle : m.addr ≤ addrEnd := by
            by_contra hlt
            exact hgap ⟨hsucc.1, by omega⟩
          exact ⟨m, hm, by omega, by omega⟩
      · rw [if_neg hsucc] at hres
        refine ih _ _ A hsub' (fun haddr => ?_) hres
        obtain ⟨hsz, hfound, hcov⟩ := hinv haddr
        refine ⟨hsz, hfound, fun x hx1 hx2 => ?_⟩
        by_cases hx : x < addrEnd
        · exact hcov x hx1 hx
        · have hmle : m.addr ≤ addrEnd := by
            by_contra hlt
            exact hgap ⟨haddr, by omega⟩
          exact ⟨m, hm, by omega, by omega⟩

/-- Concrete module used by witnesses: one region mapping file offsets
`[0, 16)` to addresses `[4096, 4112)`. -/
def witnessModule1 : sentry_module_t := ⟨some ['x'], [⟨0, 16, 4096⟩]⟩

/-- Partial soundness of the translator: in the absence of `uint64_t`
wrap-around of the region bounds and of `addr + size` (the hypotheses),
an address `A` returned for a request `(so, size)` is derived from a
stored region containing `so`, `A = so - region.offset + region.addr`,
and every address of `[A, A + size)` lies inside a stored mapped region.
The wrap-around cases excluded here are exactly where the intended
invariant breaks — see `sentry__module_get_addr_overflow_bug`. -/
theorem sentry__module_get_addr_sound (module : sentry_module_t) (so size A : Nat)
    (hwf : ∀ m ∈ module.mappings, m.offset + m.size < U64N ∧ m.addr + m.size + size < U64N)
    (hres : sentry__module_get_addr module so size = some A) :
    (∃ m ∈ module.mappings, m.offset ≤ so ∧ so < m.offset + m.size ∧
      A = so - m.offset + m.addr) ∧
    (∀ x, A ≤ x → x < A + size →
      ∃ m ∈ module.mappings, m.addr ≤ x ∧ x < m.addr + m.size) :=
  getAddrGo_sound so size module.mappings hwf module.mappings 0 (U64N - 1) A
    (fun _ h => h) (fun h => absurd rfl h) hres

/-- Concrete instance of the partial soundness result. -/
theorem sentry__module_get_addr_sound_witness :
    (∃ m ∈ witnessModule1.mappings, m.offset ≤ 4 ∧ 4 < m.offset + m.size ∧
      4100 = 4 - m.offset + m.addr) ∧
    (∀ x, 4100 ≤ x → x < 4100 + 8 →
      ∃ m ∈ witnessModule1.mappings, m.addr ≤ x ∧ x < m.addr + m.size) :=
  sentry__module_get_addr_sound witnessModule1 4 8 4100 (by decide) (by decide)

/-- A module with a single 4096-byte region mapped at address 4096. -/
def overflowModule : sentry_module_t := ⟨some ['x'], [⟨0, 4096, 4096⟩]⟩

/-- Claim C1 (code bug): the translation is meant never to return an
address for a request that cannot be fully satisfied within validated,
contiguous mapped memory — the function's own comment promises that
`start_offset + size` is checked to be a valid contiguous mapping.  But
for the request `(0, 2^64 - 1280)` on the single 4096-byte region above,
the `uint64_t` sum of the bounds check `addr + size <= addr_end` wraps
modulo `2^64` (to `2816 ≤ 8192`), so the code returns address 4096 even
though address 8192, inside the requested range `[4096, 4096 + size)`,
lies in no stored region: the request is unsatisfiable, yet an address
is returned. -/
theorem sentry__module_get_addr_overflow_bug :
    sentry__module_get_addr overflowModule 0 (U64N - 1280) = some 4096 ∧
    4096 ≤ 8192 ∧ 8192 < 4096 + (U64N - 1280) ∧
    ∀ m ∈ overflowModule.mappings, ¬(m.addr ≤ 8192 ∧ 8192 < m.addr + m.size) := by
  decide

theorem sub64_eq_sub (a b : Nat) (h1 : b ≤ a) (h2 : a < U64N) : sub64 a b = a - b := by
  unfold sub64
  have h3 : a + U64N - b = (a - b) + U64N := by omega
  rw [h3, Nat.add_mod_right, Nat.mod_eq_of_lt (by omega)]

theorem getLast?_append_single {α : Type} (l : List α) (a : α) :
    (l ++ [a]).getLast? = some a := by
  rw [List.getLast?_append_cons]; rfl

instance fragMergeDec (f g : sentry_parsed_module_t) : Decidable (fragMerge f g) :=
  decidable_of_iff
    ((f.start + sub64 f.stop f.start) % U64N = g.start
      ∧ (f.offset + sub64 f.stop f.start) % U64N = g.offset) Iff.rfl

instance mergeCondDec (module : sentry_module_t) (p : sentry_parsed_module_t) :
    Decidable (mergeCond module p) := by
  unfold mergeCond
  exact match module.mappings.getLast? with
    | some _ => inferInstanceAs (Decidable (_ ∧ _))
    | none => inferInstanceAs (Decidable False)

/-- Claim C2: with at least one stored region, a pushed fragment is merged
into the last region — its size grows by the fragment's size, offset and
address unchanged — exactly when both `last.addr + last.size = p.start`
and `last.offset + last.size = p.offset`; when either equality fails and
the table is under the cap, the fragment is stored as a fresh entry. -/
theorem sentry__module_mapping_push_spec (module : sentry_module_t)
    (p : sentry_parsed_module_t) (rs : List sentry_mapped_region_t)
    (last : sentry_mapped_region_t)
    (hms : module.mappings = rs ++ [last])
    (hps : p.start ≤ p.stop) (hpe : p.stop < U64N)
    (hwa : last.addr + last.size < U64N) (hwo : last.offset + last.size < U64N)
    (hgrow : last.size + (p.stop - p.start) < U64N) :
    ((last.addr + last.size = p.start ∧ last.offset + last.size = p.offset) →
      sentry__module_mapping_push module p =
        { module with mappings :=
            rs ++ [⟨last.offset, last.size + (p.stop - p.start), last.addr⟩] }) ∧
    (¬(last.addr + last.size = p.start ∧ last.offset + last.size = p.offset) →
      module.mappings.length < MAX_MAPPINGS →
      sentry__module_mapping_push module p =
        { module with mappings :=
            module.mappings ++ [⟨p.offset, p.stop - p.start, p.start⟩] }) := by
  unfold sentry__module_mapping_push
  rw [hms, getLast?_append_single, sub64_eq_sub p.stop p.start hps hpe]
  simp only [Nat.mod_eq_of_lt hwa, Nat.mod_eq_of_lt hwo]
  constructor
  · intro hcond
    rw [if_pos hcond, List.dropLast_concat, Nat.mod_eq_of_lt hgrow]
  · intro hcond hlen
    rw [if_neg hcond, if_pos hlen]

/-- Witness for C2 at a concrete module and fragment (merging case valid,
non-merging clause vacuous at this input). -/
theorem sentry__module_mapping_push_spec_witness :
    ((4096 + 16 = 4112 ∧ 0 + 16 = 16) →
      sentry__module_mapping_push witnessModule1 ⟨4112, 4128, [], 16, none⟩ =
        { witnessModule1 with mappings := [] ++ [⟨0, 16 + (4128 - 4112), 4096⟩] }) ∧
    (¬(4096 + 16 = 4112 ∧ 0 + 16 = 16) →
      witnessModule1.mappings.length < MAX_MAPPINGS →
      sentry__module_mapping_push witnessModule1 ⟨4112, 4128, [], 16, none⟩ =
        { witnessModule1 with mappings :=
            witnessModule1.mappings ++ [⟨16, 4128 - 4112, 4112⟩] }) :=
  sentry__module_mapping_push_spec witnessModule1 ⟨4112, 4128, [], 16, none⟩ []
    ⟨0, 16, 4096⟩ rfl (by decide) (by decide) (by decide) (by decide) (by decide)

instance chainNoMergeDec : (ps : List sentry_parsed_module_t) → Decidable (chainNoMerge ps)
  | [] => isTrue trivial
  | [_] => isTrue trivial
  | _ :: g :: rest =>
    have : Decidable (chainNoMerge (g :: rest)) := chainNoMergeDec (g :: rest)
    inferInstanceAs (Decidable (_ ∧ _))

theorem push_length_le (module : sentry_module_t) (p : sentry_parsed_module_t)
    (h : module.mappings.length ≤ MAX_MAPPINGS) :
    (sentry__module_mapping_push module p).mappings.length ≤ MAX_MAPPINGS := by
  unfold sentry__module_mapping_push
  cases hL : module.mappings.getLast? with
  | none =>
    have hnil : module.mappings = [] := by
      cases hmm : module.mappings with
      | nil => rfl
      | cons a as => rw [hmm] at hL; simp at hL
    simp only [hnil]
    simp [MAX_MAPPINGS]
  | some last =>
    simp only
    split
    · have hne : module.mappings ≠ [] := by
        intro he
        rw [he] at hL
        simp at hL
      have h1 : 1 ≤ module.mappings.length := List.length_pos.mpr hne
      simp only [List.length_append, List.length_dropLast, List.length_singleton]
      omega
    split
    · rename_i hlt
      simp only [List.length_append, List.length_singleton]
      omega
    · exact h

theorem push_at_cap (module : sentry_module_t) (p : sentry_parsed_module_t)
    (hlen : module.mappings.length = MAX_MAPPINGS) (hnm : ¬ mergeCond module p) :
    sentry__module_mapping_push module p = module := by
  unfold sentry__module_mapping_push
  unfold mergeCond at hnm
  cases hL : module.mappings.getLast? with
  | none =>
    have hnil : module.mappings = [] := by
      cases hmm : module.mappings with
      | nil => rfl
      | cons a as => rw [hmm] at hL; simp at hL
    rw [hnil] at hlen
    simp [MAX_MAPPINGS] at hlen
  | some last =>
    rw [hL] at hnm
    simp only
    rw [if_neg hnm, if_neg (by omega : ¬ module.mappings.length < MAX_MAPPINGS)]

theorem pushAll_chain : ∀ (ps : List sentry_parsed_module_t) (f : sentry_parsed_module_t)
    (module : sentry_module_t),
    module.mappings.getLast? = some (fragRegion f) →
    module.mappings.length ≤ MAX_MAPPINGS →
    module.mappings.length + ps.length ≤ 6 →
    chainNoMerge (f :: ps) →
    (ps.foldl sentry__module_mapping_push module).mappings.length =
      min (module.mappings.length + ps.length) MAX_MAPPINGS := by
  intro ps
  induction ps with
  | nil =>
    intro f module hL hle _ _
    simp only [List.foldl_nil, List.length_nil, Nat.add_zero]
    omega
  | cons g rest ih =>
    intro f module hL hle h6 hchain
    obtain ⟨hnm, hchain'⟩ : ¬ fragMerge f g ∧ chainNoMerge (g :: rest) := hchain
    have hnm' : ¬(((fragRegion f).addr + (fragRegion f).size) % U64N = g.start
        ∧ ((fragRegion f).offset + (fragRegion f).size) % U64N = g.offset) :=
      fun hc => hnm hc
    rw [List.foldl_cons]
    by_cases hcap : module.mappings.length < MAX_MAPPINGS
    · have hpush : sentry__module_mapping_push module g =
          { module with mappings := module.mappings ++ [fragRegion g] } := by
        unfold sentry__module_mapping_push
        rw [hL]
        simp only
        rw [if_neg hnm', if_pos hcap]
        rfl
      rw [hpush]
      have hrec := ih g { module with mappings := module.mappings ++ [fragRegion g] }
        (getLast?_append_single _ _)
        (by simp only [List.length_append, List.length_singleton]; omega)
        (by simp only [List.length_append, List.length_singleton]
            simp only [List.length_cons] at h6; omega)
        hchain'
      rw [hrec]
      simp
      omega
    · have hlen5 : module.mappings.length = MAX_MAPPINGS := by
        unfold MAX_MAPPINGS at *; omega
      have hrest : rest = [] := by
        simp only [List.length_cons] at h6
        rw [← List.length_eq_zero]
        unfold MAX_MAPPINGS at hlen5; omega
      have hpush : sentry__module_mapping_push module g = module := by
        unfold sentry__module_mapping_push
        rw [hL]
        simp only
        rw [if_neg hnm', if_neg hcap]
      subst hrest
      simp only [List.foldl_nil, hpush, List.length_cons, List.length_nil]
      omega

/-- A module whose region table is at the `MAX_MAPPINGS` cap (witness data). -/
def capModule : sentry_module_t :=
  ⟨none, [⟨0, 1, 10⟩, ⟨2, 1, 20⟩, ⟨4, 1, 30⟩, ⟨6, 1, 40⟩, ⟨8, 1, 50⟩]⟩

/-- Six pairwise non-contiguous parsed fragments (witness data). -/
def sixFrags : List sentry_parsed_module_t :=
  [⟨110, 111, [], 100, none⟩, ⟨210, 211, [], 200, none⟩, ⟨310, 311, [], 300, none⟩,
   ⟨410, 411, [], 400, none⟩, ⟨510, 511, [], 500, none⟩, ⟨610, 611, [], 600, none⟩]

/-- Claim C3: the stored region table never exceeds `MAX_MAPPINGS = 5`
entries; pushing onto a full table when the merge condition fails leaves
the module unchanged (the fragment is silently dropped, no error), and
pushing six consecutively non-mergeable fragments into a fresh module
stores exactly five regions. -/
theorem mapping_push_cap_spec (module module2 : sentry_module_t)
    (p q : sentry_parsed_module_t) (ps : List sentry_parsed_module_t)
    (hlen : module.mappings.length = MAX_MAPPINGS)
    (hnm : ¬ mergeCond module p)
    (hle : module2.mappings.length ≤ MAX_MAPPINGS)
    (hps : ps.length = 6) (hchain : chainNoMerge ps) :
    sentry__module_mapping_push module p = module ∧
    (sentry__module_mapping_push module2 q).mappings.length ≤ MAX_MAPPINGS ∧
    (ps.foldl sentry__module_mapping_push emptyModule).mappings.length = MAX_MAPPINGS := by
  refine ⟨push_at_cap module p hlen hnm, push_length_le module2 q hle, ?_⟩
  cases ps with
  | nil => simp at hps
  | cons p1 rest =>
    rw [List.foldl_cons]
    have hpush : sentry__module_mapping_push emptyModule p1 =
        { emptyModule with mappings := [fragRegion p1] } := rfl
    rw [hpush]
    have hrest : rest.length = 5 := by simp at hps; omega
    have hrec := pushAll_chain rest p1 { emptyModule with mappings := [fragRegion p1] }
      rfl (by simp [MAX_MAPPINGS]) (by simp [hrest]) hchain
    rw [hrec]
    simp [hrest, MAX_MAPPINGS]

/-- Witness for C3 at concrete modules and fragments. -/
theorem mapping_push_cap_spec_witness :
    sentry__module_mapping_push capModule ⟨999, 1000, [], 998, none⟩ = capModule ∧
    (sentry__module_mapping_push witnessModule1
      ⟨999, 1000, [], 998, none⟩).mappings.length ≤ MAX_MAPPINGS ∧
    (sixFrags.foldl sentry__module_mapping_push emptyModule).mappings.length = MAX_MAPPINGS :=
  mapping_push_cap_spec capModule witnessModule1 ⟨999, 1000, [], 998, none⟩
    ⟨999, 1000, [], 998, none⟩ sixFrags (by decide) (by decide) (by decide) (by decide)
    (by decide)

/-- A finished module descriptor, the object serialized by
`sentry__procmaps_module_to_value`.  `image_size` is a C `int32_t`. -/
structure ModuleDescriptor where
  kind : List Char
  image_addr : Nat
  image_size : Int
  code_file : List Char
  code_id : Option (List Char)
  debug_id : List Nat
deriving DecidableEq

/-- The module-cache globals `g_initialized` and `g_modules`
(`g_modules = none` models a null value, as after `sentry_clear_modulecache`). -/
structure ModuleCacheState where
  g_initialized : Bool
  g_modules : Option (List ModuleDescriptor)
deriving DecidableEq

/-- `sentry_get_modules_list`: on an uninitialized cache, run the
enumeration (`load_modules`, whose outcome is passed as `build`), freeze
and store it; in all cases return the stored value (a new reference to
the same frozen snapshot) together with the updated globals. -/
def sentry_get_modules_list (build : List ModuleDescriptor) (s : ModuleCacheState) :
    Option (List ModuleDescriptor) × ModuleCacheState :=
  if s.g_initialized then (s.g_modules, s)
  else (some build, ⟨true, some build⟩)

/-- `sentry_clear_modulecache`: drop the stored snapshot and mark the
cache uninitialized. -/
def sentry_clear_modulecache (_s : ModuleCacheState) : ModuleCacheState := ⟨false, none⟩

/-- Claim C9: a second `sentry_get_modules_list` call with no intervening
`sentry_clear_modulecache` returns exactly the snapshot and state of the
first call — independently of what a rebuild (`b2`) would produce, so the
list is built at most once per cache generation — and after a clear the
next call performs a fresh build, returning that build's snapshot on a
re-initialized cache. -/
theorem modules_list_cache_spec (s : ModuleCacheState)
    (b1 b2 b3 : List ModuleDescriptor) :
    sentry_get_modules_list b2 (sentry_get_modules_list b1 s).2 =
      sentry_get_modules_list b1 s ∧
    sentry_get_modules_list b3 (sentry_clear_modulecache (sentry_get_modules_list b1 s).2) =
      (some b3, ⟨true, some b3⟩) := by
  unfold sentry_get_modules_list sentry_clear_modulecache
  by_cases h : s.g_initialized <;> simp [h]

/-- `sentry_uuid_nil`: sixteen zero bytes. -/
def sentry_uuid_nil : List Nat := List.replicate 16 0

/-- `memcpy(uuid.bytes, code_id, MIN(code_id_size, 16))` over a nil uuid:
the first `min (length, 16)` code-id bytes, zero-padded to 16 bytes. -/
def padTrunc16 (cid : List Nat) : List Nat :=
  cid.take 16 ++ List.replicate (16 - cid.length) 0

/-- Little-endian 32-bit load of the first four bytes, as
`uint32_t *a = (uint32_t *)uuid_bytes` reads them on a little-endian host. -/
def load32 (b : List Nat) : Nat :=
  b.getD 0 0 + 256 * b.getD 1 0 + 65536 * b.getD 2 0 + 16777216 * b.getD 3 0

/-- `htonl` on a little-endian host: byte-reversal of a 32-bit value. -/
def bswap32 (v : Nat) : Nat :=
  16777216 * (v % 256) + 65536 * (v / 256 % 256) + 256 * (v / 65536 % 256)
    + v / 16777216 % 256

/-- Little-endian 32-bit store back into four bytes. -/
def store32 (v : Nat) : List Nat :=
  [v % 256, v / 256 % 256, v / 65536 % 256, v / 16777216 % 256]

/-- Little-endian 16-bit load of the first two bytes. -/
def load16 (b : List Nat) : Nat := b.getD 0 0 + 256 * b.getD 1 0

/-- `htons` on a little-endian host: byte-reversal of a 16-bit value. -/
def bswap16 (v : Nat) : Nat := 256 * (v % 256) + v / 256 % 256

/-- Little-endian 16-bit store back into two bytes. -/
def store16 (v : Nat) : List Nat := [v % 256, v / 256 % 256]

/-- The byte-flipping step of `sentry__procmaps_read_ids_from_elf`:
`*a = htonl(*a)` on bytes 0-3, `*b = htons(*b)` on bytes 4-5,
`*c = htons(*c)` on bytes 6-7, bytes 8-15 untouched (little-endian host). -/
def flipDebugIdBytes (b : List Nat) : List Nat :=
  store32 (bswap32 (load32 (b.take 4))) ++ store16 (bswap16 (load16 (b.drop 4)))
    ++ store16 (bswap16 (load16 (b.drop 6))) ++ b.drop 8

/-- The loop of `get_code_id_from_text_fallback`: starting from a nil
uuid, XOR byte `i` of the first `min (text_size, 4096)` mapped `.text`
bytes into accumulator position `i % 16`. -/
def get_code_id_from_text_fallback (text : List Nat) : List Nat :=
  (List.range (min text.length 4096)).foldl
    (fun uuid i => uuid.set (i % 16) (Nat.xor (uuid.getD (i % 16) 0) (text.getD i 0)))
    sentry_uuid_nil

/-- The uuid bytes of `sentry__procmaps_read_ids_from_elf` before the
byte-flipping step.  The result of `get_code_id_from_elf` (the GNU
build-id note bytes, if any) and the translated `.text` section bytes are
taken as explicit inputs; the ELF header walk that produces them happens
in mapped process memory. -/
def readIdsUuid (codeId : Option (List Nat)) (text : List Nat) : List Nat :=
  match codeId with
  | some cid => padTrunc16 cid
  | none => get_code_id_from_text_fallback text

/-- The `debug_id` bytes stored by `sentry__procmaps_read_ids_from_elf`. -/
def readIdsDebugId (codeId : Option (List Nat)) (text : List Nat) : List Nat :=
  flipDebugIdBytes (readIdsUuid codeId text)

/-- Hex digit character (lowercase). -/
def hexNibbleChar (n : Nat) : Char :=
  if n < 10 then Char.ofNat (48 + n) else Char.ofNat (87 + n)

/-- Modelled from the spec: `sentry__value_new_hexstring` lives in
`sentry_value.c`, outside this source snapshot; per the spec it encodes
exactly the given bytes as a hex string. -/
def hexStringOfBytes (bs : List Nat) : List Char :=
  (bs.map fun b => [hexNibbleChar (b / 16 % 16), hexNibbleChar (b % 16)]).flatten

/-- The `code_id` field stored by `sentry__procmaps_read_ids_from_elf`:
present exactly when a build-id note was extracted, as its hex string. -/
def readIdsCodeIdField (codeId : Option (List Nat)) : Option (List Char) :=
  codeId.map hexStringOfBytes

theorem padTrunc16_length (cid : List Nat) : (padTrunc16 cid).length = 16 := by
  simp [padTrunc16]
  omega

theorem padTrunc16_lt (cid : List Nat) (hb : ∀ b ∈ cid, b < 256) :
    ∀ b ∈ padTrunc16 cid, b < 256 := by
  intro b hbmem
  rcases List.mem_append.mp hbmem with h | h
  · exact hb b (List.mem_of_mem_take h)
  · rw [List.eq_of_mem_replicate h]
    omega

theorem store32_bswap32 (b0 b1 b2 b3 : Nat) (h0 : b0 < 256) (h1 : b1 < 256)
    (h2 : b2 < 256) (h3 : b3 < 256) :
    store32 (bswap32 (b0 + 256 * b1 + 65536 * b2 + 16777216 * b3)) = [b3, b2, b1, b0] := by
  have hw : bswap32 (b0 + 256 * b1 + 65536 * b2 + 16777216 * b3)
      = 16777216 * b0 + 65536 * b1 + 256 * b2 + b3 := by
    unfold bswap32
    omega
  rw [hw]
  unfold store32
  simp only [List.cons.injEq, and_true]
  refine ⟨?_, ?_, ?_, ?_⟩ <;> omega

theorem store16_bswap16 (b0 b1 : Nat) (h0 : b0 < 256) (h1 : b1 < 256) :
    store16 (bswap16 (b0 + 256 * b1)) = [b1, b0] := by
  have hw : bswap16 (b0 + 256 * b1) = 256 * b0 + b1 := by
    unfold bswap16
    omega
  rw [hw]
  unfold store16
  simp only [List.cons.injEq, and_true]
  refine ⟨?_, ?_⟩ <;> omega

theorem flipDebugIdBytes_eq_swapped (b : List Nat) (hlen : b.length = 16)
    (hb : ∀ x ∈ b, x < 256) :
    flipDebugIdBytes b =
      [b.getD 3 0, b.getD 2 0, b.getD 1 0, b.getD 0 0,
       b.getD 5 0, b.getD 4 0, b.getD 7 0, b.getD 6 0] ++ b.drop 8 := by
  rcases b with _ | ⟨b0, _ | ⟨b1, _ | ⟨b2, _ | ⟨b3, _ | ⟨b4, _ | ⟨b5, _ | ⟨b6, _ | ⟨b7, t⟩⟩⟩⟩⟩⟩⟩⟩ <;>
    simp at hlen
  have h0 : b0 < 256 := hb b0 (by simp)
  have h1 : b1 < 256 := hb b1 (by simp)
  have h2 : b2 < 256 := hb b2 (by simp)
  have h3 : b3 < 256 := hb b3 (by simp)
  have h4 : b4 < 256 := hb b4 (by simp)
  have h5 : b5 < 256 := hb b5 (by simp)
  have h6 : b6 < 256 := hb b6 (by simp)
  have h7 : b7 < 256 := hb b7 (by simp)
  have hl32 : load32 [b0, b1, b2, b3] = b0 + 256 * b1 + 65536 * b2 + 16777216 * b3 := rfl
  have hl16a : load16 (b4 :: b5 :: b6 :: b7 :: t) = b4 + 256 * b5 := rfl
  have hl16b : load16 (b6 :: b7 :: t) = b6 + 256 * b7 := rfl
  show store32 (bswap32 (load32 [b0, b1, b2, b3]))
      ++ store16 (bswap16 (load16 (b4 :: b5 :: b6 :: b7 :: t)))
      ++ store16 (bswap16 (load16 (b6 :: b7 :: t))) ++ t = _
  rw [hl32, hl16a, hl16b, store32_bswap32 b0 b1 b2 b3 h0 h1 h2 h3,
    store16_bswap16 b4 b5 h4 h5, store16_bswap16 b6 b7 h6 h7]
  rfl

theorem getD_replicate_zero : ∀ (n j : Nat), (List.replicate n (0 : Nat)).getD j 0 = 0 := by
  intro n
  induction n with
  | zero => intro j; cases j <;> rfl
  | succ n ih =>
    intro j
    cases j with
    | zero => rfl
    | succ k => simp only [List.replicate_succ, List.getD_cons_succ]; exact ih k

theorem getD_set_self (l : List Nat) (i v : Nat) (h : i < l.length) :
    (l.set i v).getD i 0 = v := by
  induction l generalizing i with
  | nil => simp at h
  | cons a t ih =>
    cases i with
    | zero => rfl
    | succ k => simpa using ih k (by simpa using h)

theorem getD_set_ne (l : List Nat) (i j v : Nat) (h : i ≠ j) :
    (l.set i v).getD j 0 = l.getD j 0 := by
  induction l generalizing i j with
  | nil => simp
  | cons a t ih =>
    cases i with
    | zero =>
      cases j with
      | zero => exact absurd rfl h
      | succ k => rfl
    | succ m =>
      cases j with
      | zero => rfl
      | succ k => simpa using ih m k (by omega)

theorem fold_xor_length (text : List Nat) :
    ∀ (l : List Nat) (init : List Nat),
    (l.foldl (fun uuid i => uuid.set (i % 16) (Nat.xor (uuid.getD (i % 16) 0) (text.getD i 0)))
      init).length = init.length := by
  intro l
  induction l with
  | nil => intro init; rfl
  | cons a t ih =>
    intro init
    rw [List.foldl_cons, ih]
    exact List.length_set init _ _

theorem fold_xor_byte (text : List Nat) :
    ∀ (n : Nat) (init : List Nat), init.length = 16 → ∀ j, j < 16 →
    ((List.range n).foldl
        (fun uuid i => uuid.set (i % 16) (Nat.xor (uuid.getD (i % 16) 0) (text.getD i 0)))
        init).getD j 0
      = Nat.xor (init.getD j 0)
          (((List.range n).filter (fun i => i % 16 == j)).foldl
            (fun a i => Nat.xor a (text.getD i 0)) 0) := by
  intro n
  induction n with
  | zero =>
    intro init hlen j hj
    simp only [List.range_zero, List.foldl_nil, List.filter_nil]
    exact (Nat.xor_zero _).symm
  | succ n ih =>
    intro init hlen j hj
    rw [List.range_succ n, List.foldl_append, List.filter_append, List.foldl_append]
    simp only [List.foldl_cons, List.foldl_nil]
    have hFlen :
        ((List.range n).foldl
          (fun uuid i => uuid.set (i % 16) (Nat.xor (uuid.getD (i % 16) 0) (text.getD i 0)))
          init).length = 16 := by
      rw [fold_xor_length]
      exact hlen
    by_cases hmod : n % 16 = j
    · rw [hmod]
      rw [getD_set_self _ _ _ (by rw [hFlen]; exact hj)]
      rw [ih init hlen j hj]
      simp only [List.filter_cons, List.filter_nil]
      rw [if_pos (by simpa using hmod)]
      simp only [List.foldl_cons, List.foldl_nil]
      exact Nat.xor_assoc _ _ _
    · rw [getD_set_ne _ _ _ _ hmod]
      rw [ih init hlen j hj]
      simp only [List.filter_cons, List.filter_nil]
      rw [if_neg (by simpa using hmod)]
      rfl

theorem padTrunc16_eq_take (cid : List Nat) :
    padTrunc16 cid = (cid ++ List.replicate 16 0).take 16 := by
  rw [List.take_append_eq_append_take, List.take_replicate, Nat.min_eq_left (by omega)]
  rfl

theorem hexStringOfBytes_length (bs : List Nat) :
    (hexStringOfBytes bs).length = 2 * bs.length := by
  induction bs with
  | nil => rfl
  | cons b rest ih =>
    simp only [hexStringOfBytes, List.map_cons, List.flatten_cons, List.length_append,
      List.length_cons, List.length_nil] at ih ⊢
    omega

/-- The first sixteen code-id bytes, zero-padded — the claim's description
of the truncate/pad step. -/
def first16ZeroPadded (cid : List Nat) : List Nat := (cid ++ List.replicate 16 0).take 16

/-- Claim C6: for every extracted code-id, the debug id is the first 16
code-id bytes (zero-padded when shorter, truncated when longer) with
bytes 0-3 byte-swapped as one 32-bit value, bytes 4-5 and 6-7 each
byte-swapped as 16-bit values, and bytes 8-15 unchanged; the `code_id`
output is the exact-length hex string of the untouched code-id bytes. -/
theorem read_ids_debug_id_spec (cid text : List Nat) (hb : ∀ b ∈ cid, b < 256) :
    readIdsDebugId (some cid) text =
      [(first16ZeroPadded cid).getD 3 0, (first16ZeroPadded cid).getD 2 0,
       (first16ZeroPadded cid).getD 1 0, (first16ZeroPadded cid).getD 0 0,
       (first16ZeroPadded cid).getD 5 0, (first16ZeroPadded cid).getD 4 0,
       (first16ZeroPadded cid).getD 7 0, (first16ZeroPadded cid).getD 6 0]
        ++ (first16ZeroPadded cid).drop 8 ∧
    readIdsCodeIdField (some cid) = some (hexStringOfBytes cid) ∧
    (hexStringOfBytes cid).length = 2 * cid.length := by
  refine ⟨?_, rfl, hexStringOfBytes_length cid⟩
  show flipDebugIdBytes (padTrunc16 cid) = _
  rw [flipDebugIdBytes_eq_swapped _ (padTrunc16_length cid) (padTrunc16_lt cid hb),
    padTrunc16_eq_take]
  rfl

/-- Witness for C6 at a concrete nine-byte code-id. -/
theorem read_ids_debug_id_spec_witness :
    readIdsDebugId (some [17, 34, 51, 68, 85, 102, 119, 136, 153]) [] =
      [(first16ZeroPadded [17, 34, 51, 68, 85, 102, 119, 136, 153]).getD 3 0,
       (first16ZeroPadded [17, 34, 51, 68, 85, 102, 119, 136, 153]).getD 2 0,
       (first16ZeroPadded [17, 34, 51, 68, 85, 102, 119, 136, 153]).getD 1 0,
       (first16ZeroPadded [17, 34, 51, 68, 85, 102, 119, 136, 153]).getD 0 0,
       (first16ZeroPadded [17, 34, 51, 68, 85, 102, 119, 136, 153]).getD 5 0,
       (first16ZeroPadded [17, 34, 51, 68, 85, 102, 119, 136, 153]).getD 4 0,
       (first16ZeroPadded [17, 34, 51, 68, 85, 102, 119, 136, 153]).getD 7 0,
       (first16ZeroPadded [17, 34, 51, 68, 85, 102, 119, 136, 153]).getD 6 0]
        ++ (first16ZeroPadded [17, 34, 51, 68, 85, 102, 119, 136, 153]).drop 8 ∧
    readIdsCodeIdField (some [17, 34, 51, 68, 85, 102, 119, 136, 153])
      = some (hexStringOfBytes [17, 34, 51, 68, 85, 102, 119, 136, 153]) ∧
    (hexStringOfBytes [17, 34, 51, 68, 85, 102, 119, 136, 153]).length
      = 2 * ([17, 34, 51, 68, 85, 102, 119, 136, 153] : List Nat).length :=
  read_ids_debug_id_spec [17, 34, 51, 68, 85, 102, 119, 136, 153] [] (by decide)

/-- The claim-side description of one fallback identity byte: the XOR of
the `.text` bytes at positions congruent to `j` modulo 16, among the
first `min (size, 4096)` bytes. -/
def xorFoldSpecByte (text : List Nat) (j : Nat) : Nat :=
  ((List.range (min text.length 4096)).filter (fun i => i % 16 == j)).foldl
    (fun a i => Nat.xor a (text.getD i 0)) 0

/-- Claim C7: with no GNU build-id note, the identity used for the debug
id before the byte-flipping step is the `.text` fallback: an accumulator
that starts all-zero and into which byte `i` of the first
`min (size, 4096)` section bytes is XORed at position `i % 16` — byte `j`
of the result is exactly the XOR of the section bytes at positions
congruent to `j` mod 16; identical `.text` bytes therefore give identical
fallback identities. -/
theorem text_fallback_spec (text : List Nat) :
    readIdsUuid none text = get_code_id_from_text_fallback text ∧
    (∀ j, j < 16 →
      (get_code_id_from_text_fallback text).getD j 0 = xorFoldSpecByte text j) ∧
    (∀ text2, text = text2 →
      get_code_id_from_text_fallback text = get_code_id_from_text_fallback text2) := by
  refine ⟨rfl, ?_, fun text2 h => by rw [h]⟩
  intro j hj
  unfold get_code_id_from_text_fallback xorFoldSpecByte
  rw [fold_xor_byte text (min text.length 4096) sentry_uuid_nil rfl j hj]
  rw [show sentry_uuid_nil.getD j 0 = 0 from getD_replicate_zero 16 j]
  exact Nat.zero_xor _

/-- Witness for C7 at a concrete `.text` byte list. -/
theorem text_fallback_spec_witness :
    (get_code_id_from_text_fallback [5, 6, 7]).getD 2 0 = xorFoldSpecByte [5, 6, 7] 2 :=
  (text_fallback_spec [5, 6, 7]).2.1 2 (by decide)

/-- `is_elf_module`: translate file offset 0 for the `EI_NIDENT`
identification bytes and check the four ELF magic bytes
(`0x7f 'E' 'L' 'F'`).  `mem` is the byte at each process address. -/
def is_elf_module (mem : Nat → Nat) (module : sentry_module_t) : Bool :=
  match sentry__module_get_addr module 0 EI_NIDENT with
  | none => false
  | some a =>
    decide (mem a = 127 ∧ mem (a + 1) = 69 ∧ mem (a + 2) = 76 ∧ mem (a + 3) = 70)

/-- The C conversion of a `uint64_t` sum to the `int32_t` argument of
`sentry_value_new_int32`: truncation to the low 32 bits, read as a
two's-complement signed value. -/
def toInt32 (n : Nat) : Int :=
  if n % 4294967296 < 2147483648 then ((n % 4294967296 : Nat) : Int)
  else ((n % 4294967296 : Nat) : Int) - 4294967296

/-- `sentry__procmaps_module_to_value`: `none` (a null value) unless the
module passes ELF validation; otherwise the descriptor with
`image_addr = mappings[0].addr`,
`image_size = (int32_t)(last_mapping->offset + last_mapping->size)`,
the owned file slice, and the ids from
`sentry__procmaps_read_ids_from_elf` (whose extraction inputs are the
`codeId` and `text` parameters). -/
def sentry__procmaps_module_to_value (mem : Nat → Nat) (codeId : Option (List Nat))
    (text : List Nat) (module : sentry_module_t) : Option ModuleDescriptor :=
  if is_elf_module mem module then
    some { kind := ['e', 'l', 'f'],
           image_addr := (module.mappings.headD ⟨0, 0, 0⟩).addr,
           image_size := toInt32 (((module.mappings.getLastD ⟨0, 0, 0⟩).offset
             + (module.mappings.getLastD ⟨0, 0, 0⟩).size) % U64N),
           code_file := module.file.getD [],
           code_id := readIdsCodeIdField codeId,
           debug_id := readIdsDebugId codeId text }
  else none

/-- `try_append_module`: skip modules with a NULL file pointer, skip
modules whose conversion yields null, append the rest. -/
def try_append_module (mem : Nat → Nat) (codeId : Option (List Nat)) (text : List Nat)
    (modules : List ModuleDescriptor) (module : sentry_module_t) : List ModuleDescriptor :=
  match module.file with
  | none => modules
  | some _ =>
    match sentry__procmaps_module_to_value mem codeId text module with
    | none => modules
    | some d => modules ++ [d]

/-- Claim C8: a module whose bytes at file offset 0 cannot be translated,
or whose first four bytes are not the ELF magic, converts to no
descriptor (null) and is omitted from the output list entirely, leaving
the accumulated list unchanged. -/
theorem module_to_value_drops_non_elf (mem : Nat → Nat) (codeId : Option (List Nat))
    (text : List Nat) (module : sentry_module_t) (modules : List ModuleDescriptor)
    (h : sentry__module_get_addr module 0 EI_NIDENT = none
      ∨ ∃ a, sentry__module_get_addr module 0 EI_NIDENT = some a
          ∧ ¬(mem a = 127 ∧ mem (a + 1) = 69 ∧ mem (a + 2) = 76 ∧ mem (a + 3) = 70)) :
    sentry__procmaps_module_to_value mem codeId text module = none ∧
    try_append_module mem codeId text modules module = modules := by
  have helf : is_elf_module mem module = false := by
    unfold is_elf_module
    rcases h with h | ⟨a, ha, hmagic⟩
    · rw [h]
    · rw [ha]
      exact decide_eq_false hmagic
  have hval : sentry__procmaps_module_to_value mem codeId text module = none := by
    unfold sentry__procmaps_module_to_value
    rw [helf]
    rfl
  refine ⟨hval, ?_⟩
  unfold try_append_module
  cases module.file with
  | none => rfl
  | some f => rw [hval]

/-- Witness for C8: the empty module translates no bytes at all. -/
theorem module_to_value_drops_non_elf_witness :
    sentry__procmaps_module_to_value (fun _ => 0) none [] emptyModule = none ∧
    try_append_module (fun _ => 0) none [] [] emptyModule = [] :=
  module_to_value_drops_non_elf (fun _ => 0) none [] emptyModule [] (Or.inl rfl)

theorem getLastD_append_single {α : Type} (l : List α) (a d : α) :
    (l ++ [a]).getLastD d = a := by
  simp [List.getLastD_eq_getLast?, List.getLast?_append_cons]

theorem toInt32_spec (n : Nat) :
    toInt32 n % (4294967296 : Int) = ((n % 4294967296 : Nat) : Int) ∧
    -(2147483648 : Int) ≤ toInt32 n ∧ toInt32 n < 2147483648 := by
  unfold toInt32
  have h : n % 4294967296 < 4294967296 := Nat.mod_lt _ (by omega)
  by_cases h32 : n % 4294967296 < 2147483648 <;> simp [h32] <;> omega

/-- Claim C10: a converted descriptor's `image_addr` is the mapped
address of the first stored region, and its `image_size` is the last
stored region's file offset plus its size, truncated to a 32-bit signed
integer (congruent to the file extent modulo `2^32` and lying in
`[-2^31, 2^31)`), not the 64-bit size of the mapped address range. -/
theorem module_to_value_image_fields (mem : Nat → Nat) (codeId : Option (List Nat))
    (text : List Nat) (module : sentry_module_t) (d : ModuleDescriptor)
    (rs : List sentry_mapped_region_t) (lastR : sentry_mapped_region_t)
    (hne : module.mappings ≠ [])
    (hms : module.mappings = rs ++ [lastR])
    (hwf : lastR.offset + lastR.size < U64N)
    (hd : sentry__procmaps_module_to_value mem codeId text module = some d) :
    d.image_addr = (module.mappings.head hne).addr ∧
    d.image_size % (4294967296 : Int) = ((lastR.offset + lastR.size) % 4294967296 : Nat) ∧
    -(2147483648 : Int) ≤ d.image_size ∧ d.image_size < 2147483648 := by
  unfold sentry__procmaps_module_to_value at hd
  by_cases helf : is_elf_module mem module
  · rw [if_pos helf] at hd
    have hdd := (Option.some.injEq _ _).mp hd
    have hL : module.mappings.getLastD ⟨0, 0, 0⟩ = lastR := by
      rw [hms]
      exact getLastD_append_single rs lastR _
    have hH : module.mappings.headD ⟨0, 0, 0⟩ = module.mappings.head hne := by
      rw [List.headD_eq_head?, List.head?_eq_head hne]
      rfl
    subst hdd
    refine ⟨?_, ?_, ?_, ?_⟩
    · show (module.mappings.headD ⟨0, 0, 0⟩).addr = _
      rw [hH]
    · show toInt32 (((module.mappings.getLastD ⟨0, 0, 0⟩).offset
          + (module.mappings.getLastD ⟨0, 0, 0⟩).size) % U64N) % (4294967296 : Int) = _
      rw [hL, Nat.mod_eq_of_lt hwf]
      exact (toInt32_spec _).1
    · show -(2147483648 : Int) ≤ toInt32 (((module.mappings.getLastD ⟨0, 0, 0⟩).offset
          + (module.mappings.getLastD ⟨0, 0, 0⟩).size) % U64N)
      exact (toInt32_spec _).2.1
    · show toInt32 (((module.mappings.getLastD ⟨0, 0, 0⟩).offset
          + (module.mappings.getLastD ⟨0, 0, 0⟩).size) % U64N) < 2147483648
      exact (toInt32_spec _).2.2
  · rw [if_neg helf] at hd
    exact absurd hd (by simp)

/-- Memory holding the ELF magic at addresses 1000-1003 (witness data). -/
def witnessMem : Nat → Nat := fun a =>
  if a = 1000 then 127 else if a = 1001 then 69
  else if a = 1002 then 76 else if a = 1003 then 70 else 0

/-- A one-region module mapping file offsets `[0, 16)` at address 1000
(witness data). -/
def witnessElfModule : sentry_module_t := ⟨some ['a'], [⟨0, 16, 1000⟩]⟩

/-- The descriptor produced for `witnessElfModule` (witness data). -/
def witnessDesc : ModuleDescriptor :=
  { kind := ['e', 'l', 'f'], image_addr := 1000, image_size := toInt32 (16 % U64N),
    code_file := ['a'], code_id := none, debug_id := readIdsDebugId none [] }

/-- Witness for C10 at a concrete ELF module. -/
theorem module_to_value_image_fields_witness :
    witnessDesc.image_addr = (witnessElfModule.mappings.head (by decide)).addr ∧
    witnessDesc.image_size % (4294967296 : Int) = ((0 + 16) % 4294967296 : Nat) ∧
    -(2147483648 : Int) ≤ witnessDesc.image_size ∧ witnessDesc.image_size < 2147483648 :=
  module_to_value_image_fields witnessMem none [] witnessElfModule witnessDesc
    [] ⟨0, 16, 1000⟩ (by decide) rfl (by decide) (by decide)

/-- `strchr` over a NUL-terminated buffer, as the index of the first
occurrence (`none` models a NULL result). -/
def strchrIdx (c : Char) : List Char → Option Nat
  | [] => none
  | x :: xs => if x = c then some 0 else (strchrIdx c xs).map (· + 1)

theorem strchrIdx_none (c : Char) : ∀ l : List Char, strchrIdx c l = none → c ∉ l := by
  intro l
  induction l with
  | nil => intro _ h; simp at h
  | cons x xs ih =>
    intro h
    unfold strchrIdx at h
    by_cases hx : x = c
    · rw [if_pos hx] at h; simp at h
    · rw [if_neg hx] at h
      cases hx2 : strchrIdx c xs with
      | none =>
        simp only [List.mem_cons]
        rintro (rfl | hmem)
        · exact hx rfl
        · exact ih hx2 hmem
      | some k => rw [hx2] at h; simp at h

theorem strchrIdx_some (c : Char) : ∀ (l : List Char) (i : Nat), strchrIdx c l = some i →
    i < l.length ∧ l.getD i ' ' = c ∧ ∀ j, j < i → l.getD j ' ' ≠ c := by
  intro l
  induction l with
  | nil => intro i h; simp [strchrIdx] at h
  | cons x xs ih =>
    intro i h
    unfold strchrIdx at h
    by_cases hx : x = c
    · rw [if_pos hx] at h
      obtain rfl : (0 : Nat) = i := by injection h
      exact ⟨by simp, hx, fun j hj => by omega⟩
    · rw [if_neg hx] at h
      cases hx2 : strchrIdx c xs with
      | none => rw [hx2] at h; simp at h
      | some k =>
      rw [hx2] at h
      obtain rfl : k + 1 = i := by simpa using h
      obtain ⟨h1, h2, h3⟩ := ih k hx2
      refine ⟨by simpa using h1, by simpa using h2, ?_⟩
      intro j hj
      cases j with
      | zero => simpa using hx
      | succ j' =>
        have := h3 j' (by omega)
        simpa using this

/-- The `(slash = strchr(ptr, '/')) == NULL || slash > ptr + len` test of
`load_modules`: discard when the buffer's first `'/'` is absent or lies
strictly beyond the path slice. -/
def slashBeyond (fileLen : Nat) (buf : List Char) : Bool :=
  match strchrIdx '/' buf with
  | none => true
  | some i => decide (fileLen < i)

/-- What `load_modules` does with one successfully parsed line. -/
inductive LineAction where
  | useVdso
  | discard
  | keep
deriving DecidableEq

/-- The synthetic vDSO path `linux-gate.so`. -/
def LINUX_GATE : List Char := ['l', 'i', 'n', 'u', 'x', '-', 'g', 'a', 't', 'e', '.', 's', 'o']

/-- The per-line decision of `load_modules` (its `if`/`else if`/`continue`
ladder): `useVdso` replaces the file slice with `LINUX_GATE` and keeps
the line, `discard` skips it, `keep` accumulates it into the module under
construction.  `start` and `permissions` are the parsed fields, `buf` the
NUL-terminated text at `file.ptr`, `fileLen` the slice length `file.len`. -/
def load_line_action (vdso start : Nat) (permissions : List Char) (fileLen : Nat)
    (buf : List Char) : LineAction :=
  if start ≠ 0 ∧ start = vdso then .useVdso
  else if start = 0 ∨ fileLen = 0 ∨ permissions.headD ' ' ≠ 'r'
      ∨ buf.getD (fileLen - 1) ' ' = ')'
      ∨ slashBeyond fileLen buf = true
      ∨ (5 ≤ fileLen ∧ buf.take 5 = ['/', 'd', 'e', 'v', '/'])
  then .discard
  else .keep

theorem getD_mem_of_lt (l : List Char) (i : Nat) (d : Char) (h : i < l.length) :
    l.getD i d ∈ l := by
  rw [List.getD_eq_getElem l d h]
  exact List.getElem_mem h

theorem take_getLast?_eq (buf : List Char) (n : Nat) (h0 : n ≠ 0) (hle : n ≤ buf.length) :
    (buf.take n).getLast? = some (buf.getD (n - 1) ' ') := by
  rw [List.getLast?_eq_getElem?, List.length_take]
  rw [show n ⊓ buf.length = n from by omega]
  rw [List.getElem?_take, if_pos (by omega), List.getElem?_eq_getElem (by omega),
    List.getD_eq_getElem buf ' ' (by omega)]

theorem slashBeyond_iff (fileLen : Nat) (buf : List Char)
    (hle : fileLen ≤ buf.length)
    (hnl : fileLen = buf.length ∨ buf.getD fileLen ' ' = '\n') :
    slashBeyond fileLen buf = true ↔ ¬∃ i, i < fileLen ∧ buf.getD i ' ' = '/' := by
  unfold slashBeyond
  cases hidx : strchrIdx '/' buf with
  | none =>
    simp only [true_iff]
    rintro ⟨i, hi, hc⟩
    exact strchrIdx_none '/' buf hidx (hc ▸ getD_mem_of_lt buf i ' ' (by omega))
  | some k =>
    obtain ⟨hk1, hk2, hk3⟩ := strchrIdx_some '/' buf k hidx
    simp only [decide_eq_true_eq]
    constructor
    · rintro hlt ⟨i, hi, hc⟩
      exact hk3 i (by omega) hc
    · intro hno
      by_contra hnot
      have hkle : k ≤ fileLen := by omega
      rcases Nat.lt_or_ge k fileLen with hklt | hkge
      · exact hno ⟨k, hklt, hk2⟩
      · have hkeq : k = fileLen := by omega
        rcases hnl with hfl | hch
        · omega
        · rw [hkeq] at hk2
          rw [hk2] at hch
          exact absurd hch (by decide)

/-- Claim C5: a parsed line whose nonzero start address equals the vDSO
base gets the synthetic `linux-gate.so` path and is kept; otherwise it is
discarded exactly when its start is zero, its path slice is empty, its
first permission character is not `r`, the slice's last character is `)`,
the slice contains no `/`, or the slice begins with `/dev/`; every other
line is accumulated into the module being built.  The hypotheses state
what the line parser guarantees: the slice lies inside the buffer and is
followed by a newline unless it runs to the buffer's end. -/
theorem load_line_action_spec (vdso start fileLen : Nat) (permissions buf : List Char)
    (hle : fileLen ≤ buf.length)
    (hnl : fileLen = buf.length ∨ buf.getD fileLen ' ' = '\n') :
    (load_line_action vdso start permissions fileLen buf = .useVdso
      ↔ (start ≠ 0 ∧ start = vdso)) ∧
    (¬(start ≠ 0 ∧ start = vdso) →
      (load_line_action vdso start permissions fileLen buf = .discard
        ↔ (start = 0 ∨ fileLen = 0 ∨ permissions.headD ' ' ≠ 'r'
            ∨ (buf.take fileLen).getLast? = some ')'
            ∨ (¬∃ i, i < fileLen ∧ buf.getD i ' ' = '/')
            ∨ (5 ≤ fileLen ∧ buf.take 5 = ['/', 'd', 'e', 'v', '/'])))) ∧
    (¬(start ≠ 0 ∧ start = vdso) →
      ¬(start = 0 ∨ fileLen = 0 ∨ permissions.headD ' ' ≠ 'r'
          ∨ (buf.take fileLen).getLast? = some ')'
          ∨ (¬∃ i, i < fileLen ∧ buf.getD i ' ' = '/')
          ∨ (5 ≤ fileLen ∧ buf.take 5 = ['/', 'd', 'e', 'v', '/'])) →
      load_line_action vdso start permissions fileLen buf = .keep) := by
  have hequiv : (start = 0 ∨ fileLen = 0 ∨ permissions.headD ' ' ≠ 'r'
      ∨ buf.getD (fileLen - 1) ' ' = ')'
      ∨ slashBeyond fileLen buf = true
      ∨ (5 ≤ fileLen ∧ buf.take 5 = ['/', 'd', 'e', 'v', '/']))
    ↔ (start = 0 ∨ fileLen = 0 ∨ permissions.headD ' ' ≠ 'r'
        ∨ (buf.take fileLen).getLast? = some ')'
        ∨ (¬∃ i, i < fileLen ∧ buf.getD i ' ' = '/')
        ∨ (5 ≤ fileLen ∧ buf.take 5 = ['/', 'd', 'e', 'v', '/'])) := by
    by_cases hf0 : fileLen = 0
    · constructor <;> intro _ <;> exact Or.inr (Or.inl hf0)
    · have hlast : buf.getD (fileLen - 1) ' ' = ')'
          ↔ (buf.take fileLen).getLast? = some ')' := by
        rw [take_getLast?_eq buf fileLen hf0 hle]
        exact ⟨fun h => by rw [h], fun h => by injection h⟩
      rw [hlast, slashBeyond_iff fileLen buf hle hnl]
  by_cases h1 : start ≠ 0 ∧ start = vdso
  · rw [load_line_action, if_pos h1]
    exact ⟨⟨fun _ => h1, fun _ => rfl⟩, fun hn => absurd h1 hn, fun hn => absurd h1 hn⟩
  · rw [load_line_action, if_neg h1]
    by_cases h2 : start = 0 ∨ fileLen = 0 ∨ permissions.headD ' ' ≠ 'r'
        ∨ buf.getD (fileLen - 1) ' ' = ')'
        ∨ slashBeyond fileLen buf = true
        ∨ (5 ≤ fileLen ∧ buf.take 5 = ['/', 'd', 'e', 'v', '/'])
    · rw [if_pos h2]
      refine ⟨⟨fun h => by simp at h, fun h => absurd h h1⟩, fun _ => ?_, fun _ hno => ?_⟩
      · exact ⟨fun _ => hequiv.mp h2, fun _ => rfl⟩
      · exact absurd (hequiv.mp h2) hno
    · rw [if_neg h2]
      refine ⟨⟨fun h => by simp at h, fun h => absurd h h1⟩, fun _ => ?_, fun _ _ => rfl⟩
      exact ⟨fun h => by simp at h, fun hc => absurd (hequiv.mpr hc) h2⟩

/-- Witness for C5 at a concrete kept line (`start = 1`, path `/a`). -/
theorem load_line_action_spec_witness :
    (load_line_action 2 1 ['r', '-', 'x', 'p'] 2 ['/', 'a', '\n'] = .useVdso
      ↔ ((1 : Nat) ≠ 0 ∧ (1 : Nat) = 2)) ∧
    (¬((1 : Nat) ≠ 0 ∧ (1 : Nat) = 2) →
      (load_line_action 2 1 ['r', '-', 'x', 'p'] 2 ['/', 'a', '\n'] = .discard
        ↔ ((1 : Nat) = 0 ∨ (2 : Nat) = 0 ∨ (['r', '-', 'x', 'p'].headD ' ') ≠ 'r'
            ∨ (['/', 'a', '\n'].take 2).getLast? = some ')'
            ∨ (¬∃ i, i < 2 ∧ ['/', 'a', '\n'].getD i ' ' = '/')
            ∨ (5 ≤ 2 ∧ ['/', 'a', '\n'].take 5 = ['/', 'd', 'e', 'v', '/'])))) ∧
    (¬((1 : Nat) ≠ 0 ∧ (1 : Nat) = 2) →
      ¬((1 : Nat) = 0 ∨ (2 : Nat) = 0 ∨ (['r', '-', 'x', 'p'].headD ' ') ≠ 'r'
          ∨ (['/', 'a', '\n'].take 2).getLast? = some ')'
          ∨ (¬∃ i, i < 2 ∧ ['/', 'a', '\n'].getD i ' ' = '/')
          ∨ (5 ≤ 2 ∧ ['/', 'a', '\n'].take 5 = ['/', 'd', 'e', 'v', '/'])) →
      load_line_action 2 1 ['r', '-', 'x', 'p'] 2 ['/', 'a', '\n'] = .keep) :=
  load_line_action_spec 2 1 2 ['r', '-', 'x', 'p'] ['/', 'a', '\n'] (by decide)
    (Or.inr (by decide))

/-- `isspace` in the C locale, as scanf whitespace. -/
def isScanfWs (c : Char) : Bool :=
  (c == ' ') || (c == '\t') || (c == '\n') || (c == '\x0b') || (c == '\x0c') || (c == '\r')

/-- Number of leading whitespace characters (what a scanf whitespace skip
consumes). -/
def countWs : List Char → Nat
  | [] => 0
  | c :: rest => if isScanfWs c then countWs rest + 1 else 0

/-- Hex digit value of a character. -/
def hexDigitVal (c : Char) : Option Nat :=
  if '0' ≤ c ∧ c ≤ '9' then some (c.toNat - 48)
  else if 'a' ≤ c ∧ c ≤ 'f' then some (c.toNat - 87)
  else if 'A' ≤ c ∧ c ≤ 'F' then some (c.toNat - 55)
  else none

/-- Decimal digit value of a character. -/
def decDigitVal (c : Char) : Option Nat :=
  if '0' ≤ c ∧ c ≤ '9' then some (c.toNat - 48) else none

/-- Consume leading hex digits: accumulated value and digit count. -/
def takeHexGo : List Char → Nat → Nat × Nat
  | [], acc => (acc, 0)
  | c :: rest, acc =>
    match hexDigitVal c with
    | some d =>
      let r := takeHexGo rest (acc * 16 + d)
      (r.1, r.2 + 1)
    | none => (acc, 0)

/-- Consume leading decimal digits: accumulated value and digit count. -/
def takeDecGo : List Char → Nat → Nat × Nat
  | [], acc => (acc, 0)
  | c :: rest, acc =>
    match decDigitVal c with
    | some d =>
      let r := takeDecGo rest (acc * 10 + d)
      (r.1, r.2 + 1)
    | none => (acc, 0)

/-- strtoul's optional sign as scanf consumes it: negate flag, remaining
input, characters consumed. -/
def signSkip (s : List Char) : Bool × List Char × Nat :=
  match s with
  | c :: rest =>
    if c = '-' then (true, rest, 1)
    else if c = '+' then (false, rest, 1)
    else (false, s, 0)
  | [] => (false, s, 0)

/-- strtoul's optional `0x` prefix as scanf consumes it: taken only when
a hex digit follows. -/
def hexPrefixSkip (s : List Char) : List Char × Nat :=
  match s with
  | c0 :: c1 :: rest =>
    if c0 = '0' ∧ (c1 = 'x' ∨ c1 = 'X') ∧ (hexDigitVal (rest.headD ' ')).isSome
    then (rest, 2) else (s, 0)
  | _ => (s, 0)

/-- One `%SCNx64` conversion: whitespace skip, optional sign, optional
`0x` prefix, hex digits (failing without any); the `uint64_t` value (with
unsigned negation for a minus sign) and the consumed count. -/
def scanHex64 (s : List Char) : Option (Nat × Nat) :=
  let w := countWs s
  let s1 := s.drop w
  let sg := signSkip s1
  let pre := hexPrefixSkip sg.2.1
  let r := takeHexGo pre.1 0
  if r.2 = 0 then none
  else some ((if sg.1 then (U64N - r.1 % U64N) % U64N else r.1 % U64N),
    w + sg.2.2 + pre.2 + r.2)

/-- One `%SCNu64` conversion. -/
def scanDec64 (s : List Char) : Option (Nat × Nat) :=
  let w := countWs s
  let s1 := s.drop w
  let sg := signSkip s1
  let r := takeDecGo sg.2.1 0
  if r.2 = 0 then none
  else some ((if sg.1 then (U64N - r.1 % U64N) % U64N else r.1 % U64N),
    w + sg.2.2 + r.2)

/-- One `%hhx` conversion (value stored into a `uint8_t`). -/
def scanHex8 (s : List Char) : Option (Nat × Nat) :=
  (scanHex64 s).map (fun r => (r.1 % 256, r.2))

/-- One `%4c` conversion: exactly four characters, no whitespace skip. -/
def scanChars4 (s : List Char) : Option (List Char × Nat) :=
  if 4 ≤ s.length then some (s.take 4, 4) else none

/-- A literal (non-whitespace) format character. -/
def scanLit (c : Char) (s : List Char) : Option Nat :=
  match s with
  | x :: _ => if x = c then some 1 else none
  | [] => none

/-- The `sscanf` call of `sentry__procmaps_parse_module_line` with format
`"%SCNx64-%SCNx64 %4c %SCNx64 %hhx:%hhx %SCNu64 %n"`: on success,
`(start, end, permissions, offset, %n position)`.  Whitespace directives
directly before a numeric conversion are folded into that conversion's
own whitespace skip. -/
def scanMapsLine (s : List Char) : Option (Nat × Nat × List Char × Nat × Nat) := do
  let (v1, n1) ← scanHex64 s
  let s1 := s.drop n1
  let n2 ← scanLit '-' s1
  let s2 := s1.drop n2
  let (v2, n3) ← scanHex64 s2
  let s3 := s2.drop n3
  let w1 := countWs s3
  let s4 := s3.drop w1
  let (perms, n4) ← scanChars4 s4
  let s5 := s4.drop n4
  let (v3, n5) ← scanHex64 s5
  let s6 := s5.drop n5
  let (_, n6) ← scanHex8 s6
  let s7 := s6.drop n6
  let n7 ← scanLit ':' s7
  let s8 := s7.drop n7
  let (_, n8) ← scanHex8 s8
  let s9 := s8.drop n8
  let (_, n9) ← scanDec64 s9
  let s10 := s9.drop n9
  let w2 := countWs s10
  pure (v1, v2, perms, v3, n1 + n2 + n3 + w1 + n4 + n5 + n6 + n7 + n8 + n9 + w2)

/-- `sentry__procmaps_parse_module_line`: the consumed-byte return value
(0 when fewer than the seven conversions succeed) together with the
fields stored into the parsed-module struct.  After the `sscanf`, the
code takes the file slice up to the next newline — unless the `%n`
whitespace skip already swallowed the line's newline, in which case the
file pointer is reset to NULL. -/
def sentry__procmaps_parse_module_line (buf : List Char) :
    Nat × Option sentry_parsed_module_t :=
  match scanMapsLine buf with
  | none => (0, none)
  | some (v1, v2, perms, v3, consumed) =>
    let rest := buf.drop consumed
    if consumed ≠ 0 ∧ buf.getD (consumed - 1) ' ' = '\n' then
      (consumed, some ⟨v1, v2, perms, v3, none⟩)
    else
      match strchrIdx '\n' rest with
      | some k => (consumed + k + 1, some ⟨v1, v2, perms, v3, some (rest.take k)⟩)
      | none => (consumed + rest.length, some ⟨v1, v2, perms, v3, some rest⟩)

theorem countWs_cons_false (c : Char) (s : List Char) (h : isScanfWs c = false) :
    countWs (c :: s) = 0 := by
  simp [countWs, h]

theorem countWs_append_ws (w t : List Char) (hw : ∀ c ∈ w, isScanfWs c = true) :
    countWs (w ++ t) = w.length + countWs t := by
  induction w with
  | nil => simp
  | cons c cs ih =>
    have hc : isScanfWs c = true := hw c (by simp)
    have ih' := ih (fun x hx => hw x (by simp [hx]))
    have hstep : countWs (c :: (cs ++ t)) = countWs (cs ++ t) + 1 := by
      simp [countWs, hc]
    rw [List.cons_append, hstep, ih']
    simp only [List.length_cons]
    omega

theorem hexDigit_not_ws (c : Char) (h : (hexDigitVal c).isSome = true) :
    isScanfWs c = false := by
  by_contra hws
  rw [Bool.not_eq_false] at hws
  simp only [isScanfWs, Bool.or_eq_true, beq_iff_eq] at hws
  rcases hws with ((((rfl | rfl) | rfl) | rfl) | rfl) | rfl <;> exact absurd h (by decide)

theorem hexDigit_not_minus (c : Char) (h : (hexDigitVal c).isSome = true) : c ≠ '-' := by
  rintro rfl
  exact absurd h (by decide)

theorem hexDigit_not_plus (c : Char) (h : (hexDigitVal c).isSome = true) : c ≠ '+' := by
  rintro rfl
  exact absurd h (by decide)

theorem hexDigit_not_x (c : Char) (h : (hexDigitVal c).isSome = true) :
    c ≠ 'x' ∧ c ≠ 'X' := by
  constructor <;> rintro rfl <;> exact absurd h (by decide)

theorem decDigit_hex (c : Char) (h : (decDigitVal c).isSome = true) :
    (hexDigitVal c).isSome = true := by
  unfold decDigitVal at h
  unfold hexDigitVal
  by_cases hc : '0' ≤ c ∧ c ≤ '9'
  · rw [if_pos hc]; rfl
  · rw [if_neg hc] at h; simp at h

theorem decDigit_not_ws (c : Char) (h : (decDigitVal c).isSome = true) :
    isScanfWs c = false := hexDigit_not_ws c (decDigit_hex c h)

theorem decDigit_not_minus (c : Char) (h : (decDigitVal c).isSome = true) : c ≠ '-' :=
  hexDigit_not_minus c (decDigit_hex c h)

theorem decDigit_not_plus (c : Char) (h : (decDigitVal c).isSome = true) : c ≠ '+' :=
  hexDigit_not_plus c (decDigit_hex c h)

theorem signSkip_none (c : Char) (s : List Char) (h1 : c ≠ '-') (h2 : c ≠ '+') :
    signSkip (c :: s) = (false, c :: s, 0) := by
  show (if c = '-' then ((true : Bool), s, 1)
    else if c = '+' then ((false : Bool), s, 1) else ((false : Bool), c :: s, 0)) = _
  rw [if_neg h1, if_neg h2]

/-- Every character is a hex digit. -/
def allHex (l : List Char) : Prop := ∀ c ∈ l, (hexDigitVal c).isSome = true

/-- Every character is a decimal digit. -/
def allDec (l : List Char) : Prop := ∀ c ∈ l, (decDigitVal c).isSome = true

/-- The value of a hex digit string. -/
def hexVal (l : List Char) : Nat := l.foldl (fun a c => a * 16 + (hexDigitVal c).getD 0) 0

theorem hexPrefixSkip_hex (c : Char) (cs rest : List Char)
    (_hc : (hexDigitVal c).isSome = true) (hall : allHex cs)
    (hx1 : rest.headD ' ' ≠ 'x') (hx2 : rest.headD ' ' ≠ 'X') :
    hexPrefixSkip (c :: (cs ++ rest)) = (c :: (cs ++ rest), 0) := by
  cases cs with
  | nil =>
    cases rest with
    | nil => rfl
    | cons r0 rs =>
      simp only [List.nil_append, hexPrefixSkip]
      rw [if_neg]
      rintro ⟨-, hxx, -⟩
      simp only [List.headD_cons] at hx1 hx2
      rcases hxx with h | h
      · exact hx1 h
      · exact hx2 h
  | cons c1 cs' =>
    simp only [List.cons_append, hexPrefixSkip]
    rw [if_neg]
    rintro ⟨-, hxx, -⟩
    obtain ⟨hnx, hnX⟩ := hexDigit_not_x c1 (hall c1 (by simp))
    rcases hxx with h | h
    · exact hnx h
    · exact hnX h

theorem takeHexGo_append (d : List Char) : ∀ (rest : List Char) (acc : Nat),
    allHex d → (hexDigitVal (rest.headD ' ')).isSome = false →
    takeHexGo (d ++ rest) acc
      = (d.foldl (fun a c => a * 16 + (hexDigitVal c).getD 0) acc, d.length) := by
  induction d with
  | nil =>
    intro rest acc _ hrest
    cases rest with
    | nil => rfl
    | cons c cs =>
      simp only [List.nil_append, takeHexGo]
      simp only [List.headD_cons] at hrest
      cases hdv : hexDigitVal c with
      | some dv => rw [hdv] at hrest; simp at hrest
      | none => simp [hdv, List.foldl_nil]
  | cons c cs ih =>
    intro rest acc hall hrest
    obtain ⟨dv, hdv⟩ := Option.isSome_iff_exists.mp (hall c (by simp))
    rw [List.cons_append]
    simp only [takeHexGo, hdv]
    rw [ih rest (acc * 16 + dv) (fun x hx => hall x (by simp [hx])) hrest]
    simp [List.foldl_cons, hdv]

theorem takeDecGo_append (d : List Char) : ∀ (rest : List Char) (acc : Nat),
    allDec d → (decDigitVal (rest.headD ' ')).isSome = false →
    takeDecGo (d ++ rest) acc
      = (d.foldl (fun a c => a * 10 + (decDigitVal c).getD 0) acc, d.length) := by
  induction d with
  | nil =>
    intro rest acc _ hrest
    cases rest with
    | nil => rfl
    | cons c cs =>
      simp only [List.nil_append, takeDecGo]
      simp only [List.headD_cons] at hrest
      cases hdv : decDigitVal c with
      | some dv => rw [hdv] at hrest; simp at hrest
      | none => simp [hdv, List.foldl_nil]
  | cons c cs ih =>
    intro rest acc hall hrest
    obtain ⟨dv, hdv⟩ := Option.isSome_iff_exists.mp (hall c (by simp))
    rw [List.cons_append]
    simp only [takeDecGo, hdv]
    rw [ih rest (acc * 10 + dv) (fun x hx => hall x (by simp [hx])) hrest]
    simp [List.foldl_cons, hdv]

theorem scanHex64_spec (w d rest : List Char) (hw : ∀ c ∈ w, isScanfWs c = true)
    (hd : d ≠ []) (hall : allHex d)
    (hrest : (hexDigitVal (rest.headD ' ')).isSome = false)
    (hx1 : rest.headD ' ' ≠ 'x') (hx2 : rest.headD ' ' ≠ 'X') :
    scanHex64 (w ++ (d ++ rest)) = some (hexVal d % U64N, w.length + d.length) := by
  obtain ⟨c, cs, rfl⟩ := List.exists_cons_of_ne_nil hd
  have hc := hall c (by simp)
  have hcount : countWs (w ++ (c :: cs ++ rest)) = w.length := by
    rw [countWs_append_ws w _ hw, List.cons_append,
      countWs_cons_false _ _ (hexDigit_not_ws c hc)]
    omega
  have hdrop : (w ++ (c :: cs ++ rest)).drop w.length = c :: cs ++ rest :=
    List.drop_left w _
  simp only [scanHex64, hcount, hdrop]
  rw [List.cons_append, signSkip_none c _ (hexDigit_not_minus c hc) (hexDigit_not_plus c hc)]
  simp only
  rw [hexPrefixSkip_hex c cs rest hc (fun x hx => hall x (by simp [hx])) hx1 hx2]
  simp only
  rw [show c :: (cs ++ rest) = (c :: cs) ++ rest from rfl,
    takeHexGo_append (c :: cs) rest 0 hall hrest]
  simp only
  rw [if_neg (by simp)]
  simp [hexVal]

theorem scanDec64_spec (w d rest : List Char) (hw : ∀ c ∈ w, isScanfWs c = true)
    (hd : d ≠ []) (hall : allDec d)
    (hrest : (decDigitVal (rest.headD ' ')).isSome = false) :
    ∃ v, scanDec64 (w ++ (d ++ rest)) = some (v, w.length + d.length) := by
  obtain ⟨c, cs, rfl⟩ := List.exists_cons_of_ne_nil hd
  have hc := hall c (by simp)
  have hcount : countWs (w ++ (c :: cs ++ rest)) = w.length := by
    rw [countWs_append_ws w _ hw, List.cons_append,
      countWs_cons_false _ _ (decDigit_not_ws c hc)]
    omega
  have hdrop : (w ++ (c :: cs ++ rest)).drop w.length = c :: cs ++ rest :=
    List.drop_left w _
  simp only [scanDec64, hcount, hdrop]
  rw [List.cons_append, signSkip_none c _ (decDigit_not_minus c hc) (decDigit_not_plus c hc)]
  simp only
  rw [show c :: (cs ++ rest) = (c :: cs) ++ rest from rfl,
    takeDecGo_append (c :: cs) rest 0 hall hrest]
  simp only
  rw [if_neg (by simp)]
  refine ⟨List.foldl (fun a c => a * 10 + (decDigitVal c).getD 0) 0 (c :: cs) % U64N, ?_⟩
  simp

theorem scanHex8_spec (w d rest : List Char) (hw : ∀ c ∈ w, isScanfWs c = true)
    (hd : d ≠ []) (hall : allHex d)
    (hrest : (hexDigitVal (rest.headD ' ')).isSome = false)
    (hx1 : rest.headD ' ' ≠ 'x') (hx2 : rest.headD ' ' ≠ 'X') :
    scanHex8 (w ++ (d ++ rest)) = some (hexVal d % U64N % 256, w.length + d.length) := by
  unfold scanHex8
  rw [scanHex64_spec w d rest hw hd hall hrest hx1 hx2]
  rfl

theorem scanChars4_spec (p rest : List Char) (hp : p.length = 4) :
    scanChars4 (p ++ rest) = some (p, 4) := by
  unfold scanChars4
  rw [if_pos (by simp [hp])]
  rw [show (4 : Nat) = p.length from hp.symm, List.take_left]

theorem scanLit_cons (c : Char) (s : List Char) : scanLit c (c :: s) = some 1 := by
  simp [scanLit]

theorem drop_left2 {α : Type} (a b c : List α) :
    (a ++ (b ++ c)).drop (a.length + b.length) = c := by
  rw [← List.append_assoc, ← List.length_append, List.drop_left]

def mapsLinePre (h1 h2 perms h3 h4 h5 ino : List Char) : List Char :=
  h1 ++ ('-' :: (h2 ++ (' ' :: (perms ++ (' ' :: (h3 ++ (' ' :: (h4 ++ (':' :: (h5 ++ (' ' :: ino)))))))))))

theorem scanMapsLine_spec (h1 h2 perms h3 h4 h5 ino tail : List Char)
    (hh1 : h1 ≠ []) (hx1 : allHex h1)
    (hh2 : h2 ≠ []) (hx2 : allHex h2)
    (hh3 : h3 ≠ []) (hx3 : allHex h3)
    (hh4 : h4 ≠ []) (hx4 : allHex h4)
    (hh5 : h5 ≠ []) (hx5 : allHex h5)
    (hino : ino ≠ []) (hxino : allDec ino)
    (hperms : perms.length = 4) (hp0 : isScanfWs (perms.headD ' ') = false)
    (htail : (decDigitVal (tail.headD ' ')).isSome = false) :
    ∃ n, scanMapsLine (mapsLinePre h1 h2 perms h3 h4 h5 ino ++ tail)
      = some (hexVal h1 % U64N, hexVal h2 % U64N, perms, hexVal h3 % U64N, n)
    ∧ n = (mapsLinePre h1 h2 perms h3 h4 h5 ino).length + countWs tail := by
  obtain ⟨p0, ps, hpeq⟩ := List.exists_cons_of_ne_nil
    (by intro h; rw [h] at hperms; simp at hperms : perms ≠ [])
  have hbuf : mapsLinePre h1 h2 perms h3 h4 h5 ino ++ tail
      = h1 ++ ('-' :: (h2 ++ (' ' :: (perms ++ (' ' :: (h3 ++ (' ' :: (h4 ++ (':' :: (h5 ++ (' ' :: (ino ++ tail)))))))))))) := by
    simp [mapsLinePre]
  have e1 : scanHex64 (h1 ++ ('-' :: (h2 ++ (' ' :: (perms ++ (' ' :: (h3 ++ (' ' :: (h4 ++ (':' :: (h5 ++ (' ' :: (ino ++ tail))))))))))))) = some (hexVal h1 % U64N, h1.length) := by
    have := scanHex64_spec [] h1
      ('-' :: (h2 ++ (' ' :: (perms ++ (' ' :: (h3 ++ (' ' :: (h4 ++ (':' :: (h5 ++ (' ' :: (ino ++ tail))))))))))))
      (by simp) hh1 hx1
      (by decide : (hexDigitVal '-').isSome = false)
      (by decide : ('-' : Char) ≠ 'x') (by decide : ('-' : Char) ≠ 'X')
    simpa using this
  have d1 : (h1 ++ ('-' :: (h2 ++ (' ' :: (perms ++ (' ' :: (h3 ++ (' ' :: (h4 ++ (':' :: (h5 ++ (' ' :: (ino ++ tail))))))))))))).drop h1.length = '-' :: (h2 ++ (' ' :: (perms ++ (' ' :: (h3 ++ (' ' :: (h4 ++ (':' :: (h5 ++ (' ' :: (ino ++ tail))))))))))) :=
    List.drop_left h1 _
  have e3 : scanHex64 (h2 ++ (' ' :: (perms ++ (' ' :: (h3 ++ (' ' :: (h4 ++ (':' :: (h5 ++ (' ' :: (ino ++ tail))))))))))) = some (hexVal h2 % U64N, h2.length) := by
    have := scanHex64_spec [] h2
      (' ' :: (perms ++ (' ' :: (h3 ++ (' ' :: (h4 ++ (':' :: (h5 ++ (' ' :: (ino ++ tail))))))))))
      (by simp) hh2 hx2
      (by decide : (hexDigitVal ' ').isSome = false)
      (by decide : (' ' : Char) ≠ 'x') (by decide : (' ' : Char) ≠ 'X')
    simpa using this
  have d3 : (h2 ++ (' ' :: (perms ++ (' ' :: (h3 ++ (' ' :: (h4 ++ (':' :: (h5 ++ (' ' :: (ino ++ tail))))))))))).drop h2.length = ' ' :: (perms ++ (' ' :: (h3 ++ (' ' :: (h4 ++ (':' :: (h5 ++ (' ' :: (ino ++ tail))))))))) :=
    List.drop_left h2 _
  have w1comp : countWs (' ' :: (perms ++ (' ' :: (h3 ++ (' ' :: (h4 ++ (':' :: (h5 ++ (' ' :: (ino ++ tail)))))))))) = 1 := by
    rw [hpeq]
    rw [show (' ' :: ((p0 :: ps) ++ (' ' :: (h3 ++ (' ' :: (h4 ++ (':' :: (h5 ++ (' ' :: (ino ++ tail)))))))))) = [' '] ++ (p0 :: (ps ++ (' ' :: (h3 ++ (' ' :: (h4 ++ (':' :: (h5 ++ (' ' :: (ino ++ tail)))))))))) from rfl]
    rw [countWs_append_ws [' '] _ (by decide)]
    rw [countWs_cons_false _ _ (by rw [hpeq] at hp0; simpa using hp0)]
    simp
  have e4 : scanChars4 (perms ++ (' ' :: (h3 ++ (' ' :: (h4 ++ (':' :: (h5 ++ (' ' :: (ino ++ tail))))))))) = some (perms, 4) :=
    scanChars4_spec _ _ hperms
  have d5 : (perms ++ (' ' :: (h3 ++ (' ' :: (h4 ++ (':' :: (h5 ++ (' ' :: (ino ++ tail))))))))).drop 4 = ' ' :: (h3 ++ (' ' :: (h4 ++ (':' :: (h5 ++ (' ' :: (ino ++ tail))))))) := by
    rw [show (4 : Nat) = perms.length from hperms.symm]
    exact List.drop_left perms _
  have e5 : scanHex64 (' ' :: (h3 ++ (' ' :: (h4 ++ (':' :: (h5 ++ (' ' :: (ino ++ tail)))))))) = some (hexVal h3 % U64N, 1 + h3.length) := by
    have := scanHex64_spec [' '] h3 (' ' :: (h4 ++ (':' :: (h5 ++ (' ' :: (ino ++ tail))))))
      (by decide) hh3 hx3 (by decide : (hexDigitVal ' ').isSome = false)
      (by decide : (' ' : Char) ≠ 'x') (by decide : (' ' : Char) ≠ 'X')
    simpa using this
  have d6 : (' ' :: (h3 ++ (' ' :: (h4 ++ (':' :: (h5 ++ (' ' :: (ino ++ tail)))))))).drop (1 + h3.length) = ' ' :: (h4 ++ (':' :: (h5 ++ (' ' :: (ino ++ tail))))) := by
    have := drop_left2 [' '] h3 (' ' :: (h4 ++ (':' :: (h5 ++ (' ' :: (ino ++ tail))))))
    simpa using this
  have e6 : scanHex8 (' ' :: (h4 ++ (':' :: (h5 ++ (' ' :: (ino ++ tail)))))) = some (hexVal h4 % U64N % 256, 1 + h4.length) := by
    have := scanHex8_spec [' '] h4 (':' :: (h5 ++ (' ' :: (ino ++ tail))))
      (by decide) hh4 hx4 (by decide : (hexDigitVal ':').isSome = false)
      (by decide : (':' : Char) ≠ 'x') (by decide : (':' : Char) ≠ 'X')
    simpa using this
  have d8 : (' ' :: (h4 ++ (':' :: (h5 ++ (' ' :: (ino ++ tail)))))).drop (1 + h4.length) = ':' :: (h5 ++ (' ' :: (ino ++ tail))) := by
    have := drop_left2 [' '] h4 (':' :: (h5 ++ (' ' :: (ino ++ tail))))
    simpa using this
  have e8 : scanHex8 (h5 ++ (' ' :: (ino ++ tail))) = some (hexVal h5 % U64N % 256, h5.length) := by
    have := scanHex8_spec [] h5 (' ' :: (ino ++ tail))
      (by simp) hh5 hx5 (by decide : (hexDigitVal ' ').isSome = false)
      (by decide : (' ' : Char) ≠ 'x') (by decide : (' ' : Char) ≠ 'X')
    simpa using this
  have d10 : (h5 ++ (' ' :: (ino ++ tail))).drop h5.length = ' ' :: (ino ++ tail) :=
    List.drop_left h5 _
  obtain ⟨v9, e9⟩ := scanDec64_spec [' '] ino tail (by decide) hino hxino htail
  have e9' : scanDec64 (' ' :: (ino ++ tail)) = some (v9, 1 + ino.length) := by
    simpa using e9
  have d11 : (' ' :: (ino ++ tail)).drop (1 + ino.length) = tail := by
    have := drop_left2 [' '] ino tail
    simpa using this
  refine ⟨h1.length + 1 + h2.length + 1 + 4 + (1 + h3.length) + (1 + h4.length) + 1
    + h5.length + (1 + ino.length) + countWs tail, ?_, ?_⟩
  · have d2 : ('-' :: (h2 ++ (' ' :: (perms ++ (' ' :: (h3 ++ (' ' :: (h4 ++ (':' :: (h5 ++ (' ' :: (ino ++ tail)))))))))))).drop 1 = h2 ++ (' ' :: (perms ++ (' ' :: (h3 ++ (' ' :: (h4 ++ (':' :: (h5 ++ (' ' :: (ino ++ tail)))))))))) := rfl
    have d4 : (' ' :: (perms ++ (' ' :: (h3 ++ (' ' :: (h4 ++ (':' :: (h5 ++ (' ' :: (ino ++ tail)))))))))).drop 1 = perms ++ (' ' :: (h3 ++ (' ' :: (h4 ++ (':' :: (h5 ++ (' ' :: (ino ++ tail)))))))) := rfl
    have d9 : (':' :: (h5 ++ (' ' :: (ino ++ tail)))).drop 1 = h5 ++ (' ' :: (ino ++ tail)) := rfl
    rw [hbuf]
    simp only [scanMapsLine, e1, Option.bind_eq_bind, Option.some_bind, d1, scanLit_cons,
      d2, e3, d3, w1comp, d4, e4, d5, e5, d6, e6, d8, d9, e8, d10, e9', d11, Option.pure_def]
  · simp [mapsLinePre]
    omega

theorem getD_append_cons (a : List Char) (c : Char) (X : List Char) :
    (a ++ (c :: X)).getD a.length ' ' = c := by
  induction a with
  | nil => rfl
  | cons y ys ih => simpa using ih

theorem drop_append_cons (a : List Char) (c : Char) (X : List Char) :
    (a ++ (c :: X)).drop (a.length + 1) = X := by
  have h := drop_left2 a [c] X
  simp only [List.length_singleton] at h
  exact h

theorem strchrIdx_append_cons (c : Char) (p r : List Char) (h : c ∉ p) :
    strchrIdx c (p ++ (c :: r)) = some p.length := by
  induction p with
  | nil => simp [strchrIdx]
  | cons y ys ih =>
    have hy : y ≠ c := by
      intro rfl2
      exact h (by simp [rfl2])
    simp only [List.cons_append, strchrIdx, if_neg hy]
    show Option.map (fun x => x + 1) (strchrIdx c (ys ++ (c :: r))) = _
    rw [ih (fun hmem => h (by simp [hmem]))]
    rfl

/-- Claim C4 (amended): positioned at the start of a well-formed map line
`start-end perms offset major:minor inode [path]`, the parser fills the
start/end addresses, the 4-character permission string, the file offset
and the path slice with the line's values and returns the bytes consumed
including the trailing newline — for a pathless line provided the byte
after the newline is not whitespace (the scanf whitespace skip before
`%n` would consume it as well). -/
theorem parse_module_line_wellformed (h1 h2 perms h3 h4 h5 ino p rest : List Char)
    (hh1 : h1 ≠ []) (hx1 : allHex h1)
    (hh2 : h2 ≠ []) (hx2 : allHex h2)
    (hh3 : h3 ≠ []) (hx3 : allHex h3)
    (hh4 : h4 ≠ []) (hx4 : allHex h4)
    (hh5 : h5 ≠ []) (hx5 : allHex h5)
    (hino : ino ≠ []) (hxino : allDec ino)
    (hperms : perms.length = 4) (hp0 : isScanfWs (perms.headD ' ') = false)
    (hv1 : hexVal h1 < U64N) (hv2 : hexVal h2 < U64N) (hv3 : hexVal h3 < U64N) :
    (p ≠ [] → isScanfWs (p.headD ' ') = false → '\n' ∉ p →
      sentry__procmaps_parse_module_line
          (mapsLinePre h1 h2 perms h3 h4 h5 ino ++ (' ' :: (p ++ ('\n' :: rest))))
        = ((mapsLinePre h1 h2 perms h3 h4 h5 ino ++ (' ' :: (p ++ ['\n']))).length,
           some ⟨hexVal h1, hexVal h2, perms, hexVal h3, some p⟩)) ∧
    (countWs rest = 0 →
      sentry__procmaps_parse_module_line
          (mapsLinePre h1 h2 perms h3 h4 h5 ino ++ ('\n' :: rest))
        = ((mapsLinePre h1 h2 perms h3 h4 h5 ino ++ ['\n']).length,
           some ⟨hexVal h1, hexVal h2, perms, hexVal h3, none⟩)) := by
  constructor
  · intro hp hpw hpn
    obtain ⟨p0, ps, hpeq⟩ := List.exists_cons_of_ne_nil hp
    obtain ⟨n, hscan, hn⟩ := scanMapsLine_spec h1 h2 perms h3 h4 h5 ino
      (' ' :: (p ++ ('\n' :: rest))) hh1 hx1 hh2 hx2 hh3 hx3 hh4 hx4 hh5 hx5 hino hxino
      hperms hp0 (by decide : (decDigitVal ' ').isSome = false)
    have hcw : countWs (' ' :: (p ++ ('\n' :: rest))) = 1 := by
      rw [show (' ' :: (p ++ ('\n' :: rest))) = [' '] ++ (p ++ ('\n' :: rest)) from rfl,
        countWs_append_ws [' '] _ (by decide), hpeq, List.cons_append,
        countWs_cons_false _ _ (by rw [hpeq] at hpw; simpa using hpw)]
      simp
    rw [hcw] at hn
    unfold sentry__procmaps_parse_module_line
    rw [hscan]
    simp only
    rw [if_neg]
    · rw [show (mapsLinePre h1 h2 perms h3 h4 h5 ino
          ++ (' ' :: (p ++ ('\n' :: rest)))).drop n
          = p ++ ('\n' :: rest) from by
        rw [hn]
        exact drop_append_cons _ ' ' _]
      rw [strchrIdx_append_cons '\n' p rest hpn]
      simp only
      rw [show (p ++ ('\n' :: rest)).take p.length = p from List.take_left p _]
      rw [Nat.mod_eq_of_lt hv1, Nat.mod_eq_of_lt hv2, Nat.mod_eq_of_lt hv3]
      refine congrArg₂ Prod.mk ?_ rfl
      rw [hn]
      simp [mapsLinePre]
      omega
    · rintro ⟨-, hcc⟩
      rw [hn] at hcc
      rw [show mapsLinePre h1 h2 perms h3 h4 h5 ino ++ (' ' :: (p ++ ('\n' :: rest)))
          = mapsLinePre h1 h2 perms h3 h4 h5 ino ++ (' ' :: (p ++ ('\n' :: rest)))
          from rfl] at hcc
      rw [show (mapsLinePre h1 h2 perms h3 h4 h5 ino).length + 1 - 1
          = (mapsLinePre h1 h2 perms h3 h4 h5 ino).length from by omega] at hcc
      rw [getD_append_cons] at hcc
      exact absurd hcc (by decide)
  · intro hr0
    obtain ⟨n, hscan, hn⟩ := scanMapsLine_spec h1 h2 perms h3 h4 h5 ino
      ('\n' :: rest) hh1 hx1 hh2 hx2 hh3 hx3 hh4 hx4 hh5 hx5 hino hxino
      hperms hp0 (by decide : (decDigitVal '\n').isSome = false)
    have hcw : countWs ('\n' :: rest) = 1 := by
      rw [show countWs ('\n' :: rest) = if isScanfWs '\n' then countWs rest + 1 else 0
        from rfl]
      rw [if_pos (by decide), hr0]
    rw [hcw] at hn
    unfold sentry__procmaps_parse_module_line
    rw [hscan]
    simp only
    rw [if_pos ⟨by omega, by
      rw [hn, show (mapsLinePre h1 h2 perms h3 h4 h5 ino).length + 1 - 1
        = (mapsLinePre h1 h2 perms h3 h4 h5 ino).length from by omega]
      exact getD_append_cons _ '\n' _⟩]
    rw [Nat.mod_eq_of_lt hv1, Nat.mod_eq_of_lt hv2, Nat.mod_eq_of_lt hv3]
    refine congrArg₂ Prod.mk ?_ rfl
    rw [hn]
    simp

instance allHexDec (l : List Char) : Decidable (allHex l) :=
  inferInstanceAs (Decidable (∀ c ∈ l, (hexDigitVal c).isSome = true))

instance allDecDec (l : List Char) : Decidable (allDec l) :=
  inferInstanceAs (Decidable (∀ c ∈ l, (decDigitVal c).isSome = true))

/-- Witness for the amended C4 at the concrete line `0-1 r-xp 0 0:0 0 /a`
(with path) and `0-1 r-xp 0 0:0 0` (without). -/
theorem parse_module_line_wellformed_witness :
    sentry__procmaps_parse_module_line
        (mapsLinePre ['0'] ['1'] ['r', '-', 'x', 'p'] ['0'] ['0'] ['0'] ['0']
          ++ (' ' :: (['/', 'a'] ++ ('\n' :: []))))
      = ((mapsLinePre ['0'] ['1'] ['r', '-', 'x', 'p'] ['0'] ['0'] ['0'] ['0']
          ++ (' ' :: (['/', 'a'] ++ ['\n']))).length,
         some ⟨hexVal ['0'], hexVal ['1'], ['r', '-', 'x', 'p'], hexVal ['0'],
           some ['/', 'a']⟩) ∧
    sentry__procmaps_parse_module_line
        (mapsLinePre ['0'] ['1'] ['r', '-', 'x', 'p'] ['0'] ['0'] ['0'] ['0'] ++ ('\n' :: []))
      = ((mapsLinePre ['0'] ['1'] ['r', '-', 'x', 'p'] ['0'] ['0'] ['0'] ['0']
          ++ ['\n']).length,
         some ⟨hexVal ['0'], hexVal ['1'], ['r', '-', 'x', 'p'], hexVal ['0'], none⟩) :=
  have h := parse_module_line_wellformed ['0'] ['1'] ['r', '-', 'x', 'p'] ['0'] ['0'] ['0']
    ['0'] ['/', 'a'] [] (by decide) (by decide) (by decide) (by decide) (by decide)
    (by decide) (by decide) (by decide) (by decide) (by decide) (by decide) (by decide)
    (by decide) (by decide) (by decide) (by decide) (by decide)
  ⟨h.1 (by decide) (by decide) (by decide), h.2 rfl⟩

/-- The claim's line grammar
`start-end perms offset major:minor inode [path]` for a single line. -/
def MapsLineGrammar (line : List Char) : Prop :=
  ∃ h1 h2 perms h3 h4 h5 ino path,
    (line = mapsLinePre h1 h2 perms h3 h4 h5 ino
      ∨ line = mapsLinePre h1 h2 perms h3 h4 h5 ino ++ (' ' :: path))
    ∧ h1 ≠ [] ∧ allHex h1 ∧ h2 ≠ [] ∧ allHex h2 ∧ h3 ≠ [] ∧ allHex h3
    ∧ h4 ≠ [] ∧ allHex h4 ∧ h5 ≠ [] ∧ allHex h5 ∧ ino ≠ [] ∧ allDec ino
    ∧ perms.length = 4

/-- The first line of a buffer (up to the first newline). -/
def firstLine (buf : List Char) : List Char := buf.takeWhile (fun c => c != '\n')

/-- A buffer whose first line is empty, followed by a valid map line. -/
def cexBuf : List Char := "\n0-1 r-xp 0 0:0 0 /a\n".toList

/-- Counterexample to C4 as stated: the buffer `cexBuf` starts with an
empty line, which does not match the grammar, yet the parser returns a
nonzero count — the numeric conversions of `sscanf` skip leading
whitespace (including newlines) and parse the following line. -/
theorem parse_module_line_claim_counterexample :
    ¬ MapsLineGrammar (firstLine cexBuf) ∧
    (sentry__procmaps_parse_module_line cexBuf).1 ≠ 0 := by
  constructor
  · rintro ⟨h1, h2, perms, h3, h4, h5, ino, path, hline, hh1, -⟩
    have hfl : firstLine cexBuf = [] := rfl
    rw [hfl] at hline
    obtain ⟨c, cs, rfl⟩ := List.exists_cons_of_ne_nil hh1
    rcases hline with h | h <;> simp [mapsLinePre] at h
  · decide
